import Mathlib

/-!
Verification development for the asttokens repository (gristlabs/asttokens).

The development shallowly embeds the token-navigation primitives
(asttokens/asttokens.py), the two token-assignment passes
(asttokens/mark_tokens.py, asttokens.py), the text-extraction functions
(asttokens.py CodeText.get_text, asttokens/asttokens.py ASTTokens.get_text_range),
the bracket interval index (asttokens/intervaltree.py) and the generic
explicit-stack tree walker (asttokens/util.py visit_tree).

Conventions of the embedding:
* Python token kinds are represented by the numeric codes used by the
  CPython token module (ENDMARKER, NAME, ..., OP, COMMENT, NL).
* A Python token (util.Token namedtuple) keeps the fields the algorithms
  read: type, string, index, startpos, endpos.  The display-only fields
  (start, end, line) appear only in error messages in the source and are
  dropped; errors are represented by the inductive PyErr instead.
* Python list indexing (which wraps around for indices in [-len, -1] and
  raises IndexError outside [-len, len)) is modelled by pyGet; IndexError
  is modelled as Option.none / PyErr.outOfRange.
* Fallible Python code is translated to Option / Except PyErr.
-/

/-- Numeric code of the ENDMARKER token kind (end-of-input sentinel). -/
def ENDMARKER : Nat := 0

/-- Numeric code of the NAME token kind. -/
def NAME : Nat := 1

/-- Numeric code of the NUMBER token kind. -/
def NUMBER : Nat := 2

/-- Numeric code of the STRING token kind. -/
def STRINGKIND : Nat := 3

/-- Numeric code of the NEWLINE (logical line end) token kind. -/
def NEWLINE : Nat := 4

/-- Numeric code of the OP token kind. -/
def OP : Nat := 54

/-- Numeric code of the COMMENT token kind. -/
def COMMENT : Nat := 60

/-- Numeric code of the NL (non-logical newline) token kind. -/
def NL : Nat := 61

/-- Embedding of util.Token: the fields of the 8-tuple that the algorithms
read (type, string, index, startpos, endpos); the display-only fields
start, end and line are omitted. -/
structure Tok where
  type : Nat
  string : String
  index : Nat
  startpos : Nat
  endpos : Nat
deriving DecidableEq, Repr, Inhabited

/-- Errors raised by the Python source: ValueError from util.expect_token
(the spec's ConsistencyError), IndexError from list indexing (the spec's
OutOfRange), and AttributeError/TypeError from using a missing token. -/
inductive PyErr where
  | consistency
  | outOfRange
  | attrMissing
deriving DecidableEq, Repr

/-- Converts an Option to Except with the given error for none. -/
def liftOpt (e : PyErr) : Option α → Except PyErr α
  | some a => .ok a
  | none => .error e

/-- Embedding of util.match_token: token.type == tok_type and
(tok_str is None or token.string == tok_str). -/
def matchToken (t : Tok) (tokType : Nat) (tokStr : Option String) : Bool :=
  t.type == tokType && (match tokStr with
    | none => true
    | some s => t.string == s)

/-- Embedding of token.ISEOF: the kind equals ENDMARKER. -/
def isEOF (ty : Nat) : Bool := ty == ENDMARKER

/-- Modelled from the spec: util.is_non_coding_token is imported by
asttokens/asttokens.py but its definition is not in the sources; per the
spec, non-coding tokens are the comments and blank-line (NL) markers. -/
def isNonCoding (ty : Nat) : Bool := ty == COMMENT || ty == NL

/-- Python list indexing semantics: a negative index in [-len, -1] wraps
around to the end; anything outside [-len, len) is an IndexError (none). -/
def pyGet {A : Type} (l : List A) (i : Int) : Option A :=
  if 0 ≤ i then l.get? i.toNat
  else if 0 ≤ i + l.length then l.get? (i + l.length).toNat
  else none

/-- Loop of the forward scan skipping non-coding tokens: the fuel only
bounds the recursion (each step either stops or moves right, so
toks.length + 1 steps always suffice from any start). -/
def skipFwdGo (toks : List Tok) : Nat → Nat → Option Tok
  | 0, _ => none
  | fuel + 1, i =>
    match toks.get? i with
    | none => none
    | some t => if isNonCoding t.type then skipFwdGo toks fuel (i + 1) else some t

/-- Forward scan skipping non-coding tokens, starting at list position i;
none models the IndexError of running off the end of the list. -/
def skipFwd (toks : List Tok) (i : Nat) : Option Tok :=
  skipFwdGo toks (toks.length + 1) i

/-- Loop of the backward scan skipping non-coding tokens (Python list
indexing, so the position may be negative and wrap around): the fuel only
bounds the recursion (the scan stops below -len, so 2 len + 2 steps always
suffice from any start below len). -/
def skipBwdGo (toks : List Tok) : Nat → Int → Option Tok
  | 0, _ => none
  | fuel + 1, i =>
    match pyGet toks i with
    | none => none
    | some t => if isNonCoding t.type then skipBwdGo toks fuel (i - 1) else some t

/-- Backward scan skipping non-coding tokens, starting at Python list
position i (which may be negative and wrap around). -/
def skipBwd (toks : List Tok) (i : Int) : Option Tok :=
  skipBwdGo toks (2 * toks.length + 2) i

/-- Embedding of ASTTokens.next_token: i = tok.index + 1, skip non-coding
tokens unless include_extra, return self._tokens[i]; none is IndexError. -/
def nextToken (toks : List Tok) (includeExtra : Bool) (t : Tok) : Option Tok :=
  if includeExtra then toks.get? (t.index + 1)
  else skipFwd toks (t.index + 1)

/-- Embedding of ASTTokens.prev_token: i = tok.index - 1, skip non-coding
tokens unless include_extra, return self._tokens[i] with Python list
semantics (negative indices wrap around). -/
def prevToken (toks : List Tok) (includeExtra : Bool) (t : Tok) : Option Tok :=
  if includeExtra then pyGet toks ((t.index : Int) - 1)
  else skipBwd toks ((t.index : Int) - 1)

/-- Loop body of ASTTokens.find_token: while not match_token(t, ...) and not
token.ISEOF(t.type): t = advance(t, include_extra=True).  The fuel argument
only rules out non-termination on ill-formed token lists; find_token's
callers always provide enough fuel via findToken. -/
def findGo (toks : List Tok) (tokType : Nat) (tokStr : Option String)
    (reverse : Bool) : Nat → Tok → Option Tok
  | 0, _ => none
  | fuel + 1, t =>
    if matchToken t tokType tokStr || isEOF t.type then some t
    else
      match (if reverse then prevToken toks true t else nextToken toks true t) with
      | none => none
      | some t2 => findGo toks tokType tokStr reverse fuel t2

/-- Embedding of ASTTokens.find_token: looks for the first token, starting
at start_token, that matches tok_type (and tok_str if given); searches
backwards if reverse; stops at (and returns) the ENDMARKER token. -/
def findToken (toks : List Tok) (start : Tok) (tokType : Nat)
    (tokStr : Option String) (reverse : Bool) : Option Tok :=
  findGo toks tokType tokStr reverse (toks.length + 1) start

/-- Embedding of ASTTokens.token_range: all tokens from first_token.index
through last_token.index inclusive, filtered by coding-ness unless
include_extra. -/
def tokenRange (toks : List Tok) (first last : Tok) (includeExtra : Bool) :
    List Tok :=
  ((List.range' first.index (last.index + 1 - first.index)).filterMap
      (fun i => toks.get? i)).filter
    (fun t => includeExtra || !isNonCoding t.type)

/-- Structural index check: each token's index field equals its position. -/
def idxOK : List Tok → Nat → Bool
  | [], _ => true
  | t :: rest, i => t.index == i && idxOK rest (i + 1)

/-- Positional check that exactly the final token of the list has the
ENDMARKER kind. -/
def eofOnlyLast : List Tok → Bool
  | [] => false
  | [t] => isEOF t.type
  | t :: u :: rest => !isEOF t.type && eofOnlyLast (u :: rest)

/-- Well-formedness of a token sequence as produced by the tokenizer
wrapper: nonempty, index fields equal positions, the last token (and only
the last) is the ENDMARKER sentinel. -/
def tokensWF (toks : List Tok) : Bool :=
  idxOK toks 0 && eofOnlyLast toks


/-- Embedding of util.expect_token: verifies that the given token is of the
expected type (and string, if given); raises ValueError otherwise, which is
the spec's ConsistencyError. -/
def expectToken (t : Tok) (tokType : Nat) (tokStr : Option String) :
    Except PyErr Unit :=
  if matchToken t tokType tokStr then .ok () else .error .consistency

/-- Embedding of the _matching_pairs mapping: opening bracket token info to
the matching closing bracket token info. -/
def matchingPairs (p : Nat × String) : Option (Nat × String) :=
  if p.1 = OP then
    if p.2 = "(" then some (OP, ")")
    else if p.2 = "[" then some (OP, "]")
    else if p.2 = "\x7b" then some (OP, "\x7d")
    else none
  else none

/-- Embedding of one iteration of the stack-building loop of
AssignLastTokens._visit_after_children: pop when the token equals the
expected closer on top, else push the matching closer of an opening
bracket.  The Lean list head is the Python list end (the stack top). -/
def stackStep (stack : List (Nat × String)) (tokInfo : Nat × String) :
    List (Nat × String) :=
  match stack with
  | top :: rest =>
    if tokInfo = top then rest
    else match matchingPairs tokInfo with
      | some cl => cl :: top :: rest
      | none => top :: rest
  | [] =>
    match matchingPairs tokInfo with
    | some cl => [cl]
    | none => []

/-- The tokens_to_match stack after folding the stack-building loop over
the gap tokens of a node. -/
def buildStack (gaps : List Tok) : List (Nat × String) :=
  gaps.foldl (fun st tok => stackStep st (tok.type, tok.string)) []

/-- Embedding of the while loop of AssignLastTokens._visit_after_children:
while tokens_to_match: last = next_token(last); expect_token(last, *pop()). -/
def extendToMatch (toks : List Tok) : Tok → List (Nat × String) → Except PyErr Tok
  | last, [] => .ok last
  | last, top :: rest => do
    let l2 ← liftOpt .outOfRange (nextToken toks false last)
    let _ ← expectToken l2 top.1 (some top.2)
    extendToMatch toks l2 rest

/-- Composition of the stack building and the closing-bracket extension
loop: the whole bracket reconciliation phase of the last-token pass. -/
def bracketExtend (toks : List Tok) (last : Tok) (gaps : List Tok) :
    Except PyErr Tok :=
  extendToMatch toks last (buildStack gaps)

/-- Chain predicate used to characterize extendToMatch: starting from last,
each successive next_token step lands on a token matching the successive
expected closers, ending at u (u = last when the stack is empty). -/
def chainMatches (toks : List Tok) : Tok → List (Nat × String) → Tok → Bool
  | last, [], u => u == last
  | last, top :: rest, u =>
    match nextToken toks false last with
    | none => false
    | some l2 => matchToken l2 top.1 (some top.2) && chainMatches toks l2 rest u

/-- Embedding of AssignLastTokens._find_last_in_line: find the NEWLINE from
start_token (falling back to ENDMARKER on IndexError, which cannot occur
with the EOF-stopping find_token), then step back one (coding) token. -/
def findLastInLine (toks : List Tok) (start : Tok) : Option Tok :=
  match findToken toks start NEWLINE none false with
  | some nl => prevToken toks false nl
  | none =>
    match findToken toks start ENDMARKER none false with
    | some nl => prevToken toks false nl
    | none => none

/-- Python str.rfind of a newline character in s before position stop:
the largest index of a newline character below stop, or -1. -/
def rfindNewline (s : String) (stop : Nat) : Int :=
  (List.range (min stop s.length)).foldl
    (fun acc i => if s.toList.get? i = some (Char.ofNat 10) then (i : Int) else acc)
    (-1)

/-- Python string slicing s[a:b] for nonnegative bounds. -/
def strSlice (s : String) (a b : Nat) : String :=
  String.mk ((s.toList.drop a).take (b - a))

/-- Predicate for the already-parenthesized check of CodeText.get_text:
node.first_token[:2] in _matching_pairs and node.last_token[:2] equals the
matching closer. -/
def isMatchingPair (f l : Tok) : Bool :=
  match matchingPairs (f.type, f.string) with
  | some cl => (l.type, l.string) == cl
  | none => false

/-- Node view used by CodeText.get_text of asttokens.py: the optional pair
of assigned first/last tokens (none models a node without the first_token
attribute) and whether the node is an ast.expr. -/
structure CTNode where
  tokens : Option (Tok × Tok)
  isExpr : Bool

namespace CodeText

/-- Embedding of CodeText.get_text of asttokens.py: None without
first_token; for multi-(logical-)line nodes keep the indentation of the
first line; for expression nodes containing an NL token, parenthesize the
text unless the node is already delimited by a matching bracket pair. -/
def getText (text : String) (toks : List Tok) (n : CTNode) : Option String :=
  match n.tokens with
  | none => none
  | some (f, l) =>
    if (tokenRange toks f l false).any (fun t => matchToken t NEWLINE none) then
      some (strSlice text (rfindNewline text f.startpos + 1).toNat l.endpos)
    else
      let body := strSlice text f.startpos l.endpos
      if n.isExpr && (tokenRange toks f l true).any (fun tk => matchToken tk NL none) then
        if !isMatchingPair f l then some ("(" ++ body ++ ")") else some body
      else some body

end CodeText

/-- Node view used by ASTTokens.get_text_range: the optional pair of
assigned first/last tokens (none models a node without the first_token
attribute, such as a context marker). -/
structure MNode where
  firstLast : Option (Tok × Tok)

namespace ASTTokens

/-- Embedding of ASTTokens.get_text_range of asttokens/asttokens.py on the
marked path (tokens initialized, so the unmarked shortcut is not taken):
(0, 0) when the node has no first_token attribute; otherwise the start
offset, moved to the start of the line for multi-logical-line nodes, and
the end offset of the last token. -/
def getTextRange (text : String) (toks : List Tok) (n : MNode) : Nat × Nat :=
  match n.firstLast with
  | none => (0, 0)
  | some (f, l) =>
    let start :=
      if (tokenRange toks f l false).any (fun t => matchToken t NEWLINE none) then
        (rfindNewline text f.startpos + 1).toNat
      else f.startpos
    (start, l.endpos)

/-- Embedding of ASTTokens.get_text: the slice of the source text at the
range given by get_text_range. -/
def getText (text : String) (toks : List Tok) (n : MNode) : String :=
  let r := getTextRange text toks n
  strSlice text r.1 r.2

end ASTTokens

/-- Input tree node for the marking passes: the node kind (lowercased class
name, used for visit_ method dispatch), whether the node is an ast.stmt,
the optional anchor (the index of the token resolved from the node's
lineno/col_offset by get_token_from_utf8; none when col_offset is absent),
and the already-filtered children (iter_children output). -/
inductive ANode where
  | mk (kind : String) (stmt : Bool) (anchor : Option Nat) (children : List ANode)
deriving Repr

/-- Tree after the first pass: each node also carries its assigned
first_token (none models a node left without position information). -/
inductive ANode1 where
  | mk (kind : String) (stmt : Bool) (anchor : Option Nat)
    (firstTok : Option Tok) (children : List ANode1)
deriving Repr

/-- Tree after both passes: each node carries its assigned first_token and
last_token. -/
inductive ANode2 where
  | mk (kind : String) (stmt : Bool) (anchor : Option Nat)
    (firstTok : Tok) (lastTok : Tok) (children : List ANode2)
deriving Repr

/-- Assigned first token of a pass-one node. -/
def ANode1.firstTok : ANode1 → Option Tok
  | .mk _ _ _ f _ => f

/-- Children of a pass-one node. -/
def ANode1.children : ANode1 → List ANode1
  | .mk _ _ _ _ ch => ch

/-- Assigned first token of a fully marked node. -/
def ANode2.firstTok : ANode2 → Tok
  | .mk _ _ _ f _ _ => f

/-- Assigned last token of a fully marked node. -/
def ANode2.lastTok : ANode2 → Tok
  | .mk _ _ _ _ l _ => l

/-- Children of a fully marked node. -/
def ANode2.children : ANode2 → List ANode2
  | .mk _ _ _ _ _ ch => ch

/-- Embedding of the token resolution step of
AssignFirstTokens._visit_after_children, before the per-kind correction:
if not token or (first_child and first_child.first_token.index <
token.index): token = first_child.first_token if first_child else
parent_token.  firstChild is none when the node has no children; some
none models a first child whose first_token is None (reading .index on it
raises, modelled as attrMissing). -/
def resolveFirstToken (anchorTok : Option Tok) (firstChild : Option (Option Tok))
    (parentTok : Option Tok) : Except PyErr (Option Tok) :=
  match anchorTok with
  | none =>
    match firstChild with
    | some ft => pure ft
    | none => pure parentTok
  | some a =>
    match firstChild with
    | none => pure (some a)
    | some none => .error .attrMissing
    | some (some f) => pure (if f.index < a.index then some f else some a)

/-- Embedding of the per-kind first-token corrections of AssignFirstTokens
(NodeMethods dispatch on the lowercased class name): visit_listcomp steps
one token back and asserts an opening bracket; visit_comprehension searches
backwards for the for keyword; every other kind is visit_default. -/
def firstCorrection (toks : List Tok) (kind : String) (tok : Option Tok) :
    Except PyErr (Option Tok) :=
  if kind = "listcomp" then
    match tok with
    | none => .error .attrMissing
    | some t => do
      let before ← liftOpt .outOfRange (prevToken toks false t)
      let _ ← expectToken before OP (some "[")
      pure (some before)
  else if kind = "comprehension" then
    match tok with
    | none => .error .attrMissing
    | some t => do
      let r ← liftOpt .outOfRange (findToken toks t NAME (some "for") true)
      pure (some r)
  else pure tok

mutual

/-- Embedding of the first-token assignment pass
(AssignFirstTokens.visit_tree): pre-order resolves the anchor token from
the node's declared position, children receive "token or parent_token" as
fallback, post-order combines anchor, first child and fallback and applies
the per-kind correction.  The Python pass mutates node.first_token; the
embedding returns the annotated tree (explicit state passing). -/
def firstPass (toks : List Tok) : ANode → Option Tok → Except PyErr ANode1
  | .mk kind stmt anchor children, parentTok => do
    let anchorTok ← match anchor with
      | none => pure (Option.none (α := Tok))
      | some i =>
        match toks.get? i with
        | some t => pure (some t)
        | none => Except.error PyErr.outOfRange
    let children2 ← firstPassList toks children (anchorTok.orElse (fun _ => parentTok))
    let resolved ← resolveFirstToken anchorTok (children2.head?.map ANode1.firstTok) parentTok
    let corrected ← firstCorrection toks kind resolved
    pure (.mk kind stmt anchor corrected children2)

/-- List helper for firstPass: processes the children in order, all with
the same fallback token. -/
def firstPassList (toks : List Tok) : List ANode → Option Tok → Except PyErr (List ANode1)
  | [], _ => pure []
  | c :: cs, fb => do
    let c2 ← firstPass toks c fb
    let cs2 ← firstPassList toks cs fb
    pure (c2 :: cs2)

end

/-- Loop of AssignLastTokens.visit_num: while match_token(last, token.OP):
last = next_token(last).  The fuel argument only rules out divergence on
ill-formed token lists. -/
def numLoop (toks : List Tok) : Nat → Tok → Except PyErr Tok
  | 0, _ => .error .outOfRange
  | fuel + 1, last =>
    if matchToken last OP none then do
      let l2 ← liftOpt .outOfRange (nextToken toks false last)
      numLoop toks fuel l2
    else pure last

/-- Embedding of the per-kind last-token corrections of AssignLastTokens
(NodeMethods dispatch): attribute kinds take the following dot and name,
call finds the next closing paren, subscript the next closing bracket,
tuple absorbs a trailing comma, num skips operator tokens; every other
kind is visit_default. -/
def lastCorrection (toks : List Tok) (kind : String) (last : Tok) :
    Except PyErr Tok :=
  if kind = "attribute" || kind = "assignattr" || kind = "delattr" then do
    let dot ← liftOpt .outOfRange (nextToken toks false last)
    let name ← liftOpt .outOfRange (nextToken toks false dot)
    let _ ← expectToken dot OP (some ".")
    let _ ← expectToken name NAME none
    pure name
  else if kind = "call" then
    liftOpt .outOfRange (findToken toks last OP (some ")") false)
  else if kind = "subscript" then
    liftOpt .outOfRange (findToken toks last OP (some "]") false)
  else if kind = "tuple" then
    match nextToken toks false last with
    | none => pure last
    | some c => pure (if matchToken c OP (some ",") then c else last)
  else if kind = "num" then numLoop toks (toks.length + 1) last
  else pure last

/-- Embedding of the loop of AssignLastTokens._iter_non_child_tokens: for
each child, yield the tokens from the cursor up to the token before the
child's first token; stop after a child whose last token reaches the
node's last; otherwise move the cursor past the child; finally yield the
remaining tokens up to last. -/
def iterNonChildGo (toks : List Tok) (last : Tok) :
    Tok → List ANode2 → Except PyErr (List Tok)
  | tok, [] => pure (tokenRange toks tok last false)
  | tok, n :: rest => do
    let p ← liftOpt .outOfRange (prevToken toks false n.firstTok)
    let part := tokenRange toks tok p false
    if last.index ≤ n.lastTok.index then pure part
    else do
      let tok2 ← liftOpt .outOfRange (nextToken toks false n.lastTok)
      let restL ← iterNonChildGo toks last tok2 rest
      pure (part ++ restL)

/-- Embedding of AssignLastTokens._iter_non_child_tokens (as a list): all
tokens in [first_token, last_token] that do not belong to any child. -/
def iterNonChild (toks : List Tok) (first last : Tok) (children : List ANode2) :
    Except PyErr (List Tok) :=
  iterNonChildGo toks last first children

mutual

/-- Embedding of the last-token assignment pass
(AssignLastTokens.visit_tree of asttokens/mark_tokens.py): post-order, the
candidate starts at the last child's last token (else the node's first
token), unmatched opening brackets among the gap tokens extend the
candidate to their closers, statements extend to before the NEWLINE, and
the per-kind correction is applied.  The Python pass mutates
node.last_token; the embedding returns the annotated tree. -/
def lastPass (toks : List Tok) : ANode1 → Except PyErr ANode2
  | .mk kind stmt anchor firstTok children => do
    let children2 ← lastPassList toks children
    let f ← match firstTok with
      | some f => pure f
      | none => Except.error PyErr.attrMissing
    let last0 := match children2.getLast? with
      | some c => c.lastTok
      | none => f
    let gaps ← iterNonChild toks f last0 children2
    let last1 ← bracketExtend toks last0 gaps
    let last2 ← if stmt then liftOpt .outOfRange (findLastInLine toks last1) else pure last1
    let last3 ← lastCorrection toks kind last2
    pure (.mk kind stmt anchor f last3 children2)

/-- List helper for lastPass: processes the children in order. -/
def lastPassList (toks : List Tok) : List ANode1 → Except PyErr (List ANode2)
  | [] => pure []
  | c :: cs => do
    let c2 ← lastPass toks c
    let cs2 ← lastPassList toks cs
    pure (c2 :: cs2)

end

/-- Embedding of CodeText.mark_tokens / MarkTokens.visit_tree: run the
first-token pass (with None as the root fallback) and then the last-token
pass. -/
def markTree (toks : List Tok) (t : ANode) : Except PyErr ANode2 := do
  let t1 ← firstPass toks t none
  lastPass toks t1

mutual

/-- Decidable form of the containment invariant: at every node the first
token is no later than the last token, and every child's token range is
contained in its parent's. -/
def rangeInvariant : ANode2 → Bool
  | .mk _ _ _ f l ch => (f.index ≤ l.index : Bool) && rangeInvariantList f l ch

/-- List helper for rangeInvariant. -/
def rangeInvariantList (f l : Tok) : List ANode2 → Bool
  | [] => true
  | c :: cs =>
    (f.index ≤ c.firstTok.index : Bool) && (c.lastTok.index ≤ l.index : Bool) &&
      rangeInvariant c && rangeInvariantList f l cs

end

mutual

/-- Anchors of a tree in pre-order. -/
def anchorPre : ANode → List Nat
  | .mk _ _ a ch => (match a with | some x => [x] | none => []) ++ anchorPreList ch

/-- List helper for anchorPre. -/
def anchorPreList : List ANode → List Nat
  | [] => []
  | c :: cs => anchorPre c ++ anchorPreList cs

end

/-- Kinds with no visit_ correction in either pass (visit_default is used
in both passes). -/
def defaultKind (k : String) : Bool :=
  !(k == "listcomp" || k == "comprehension" || k == "attribute" ||
    k == "assignattr" || k == "delattr" || k == "call" || k == "subscript" ||
    k == "tuple" || k == "num")

mutual

/-- Structural side conditions for the containment theorem: every node has
a valid anchor token index, is not a statement, and has a kind without
per-kind corrections. -/
def structuralOK (toks : List Tok) : ANode → Bool
  | .mk k s a ch =>
    (match a with
     | some i => i < toks.length
     | none => false) &&
    !s && defaultKind k && structuralOKList toks ch

/-- List helper for structuralOK. -/
def structuralOKList (toks : List Tok) : List ANode → Bool
  | [] => true
  | c :: cs => structuralOK toks c && structuralOKList toks cs

end

/-- Every token of the sequence is a coding token. -/
def allCoding (toks : List Tok) : Bool :=
  toks.all (fun t => !isNonCoding t.type)

/-- No token of the sequence is an opening bracket. -/
def noBrackets (toks : List Tok) : Bool :=
  toks.all (fun t => (matchingPairs (t.type, t.string)).isNone)

mutual

/-- Anchor of the rightmost spine of a tree with anchor a and children ch:
the anchor of the node itself for a leaf, else of the last child's
rightmost spine. -/
def rmAList (a : Option Nat) : List ANode → Option Nat
  | [] => a
  | [c] => rmA c
  | _ :: c :: cs => rmAList a (c :: cs)

/-- Anchor of the rightmost spine of a tree. -/
def rmA : ANode → Option Nat
  | .mk _ _ a ch => rmAList a ch

end

mutual

/-- Expected result of the first pass on an all-anchored, ordered tree:
every node's first token is its own anchor token. -/
def decorate1 (toks : List Tok) : ANode → ANode1
  | .mk k s a ch => .mk k s a (a.bind (fun i => toks.get? i)) (decorate1List toks ch)

/-- List helper for decorate1. -/
def decorate1List (toks : List Tok) : List ANode → List ANode1
  | [] => []
  | c :: cs => decorate1 toks c :: decorate1List toks cs

end

mutual

/-- Expected result of both passes on an all-anchored, ordered,
bracket-free tree: first token is the anchor token, last token is the
anchor token of the rightmost spine. -/
def decorate2 (toks : List Tok) : ANode → ANode2
  | .mk k s a ch =>
    .mk k s a ((a.bind (fun i => toks.get? i)).getD default)
      (((rmAList a ch).bind (fun i => toks.get? i)).getD default)
      (decorate2List toks ch)

/-- List helper for decorate2. -/
def decorate2List (toks : List Tok) : List ANode → List ANode2
  | [] => []
  | c :: cs => decorate2 toks c :: decorate2List toks cs

end


/-- Raw interval tree node as built by intervaltree.make_tree before
finalize: a bracket pair interval with its children (including the initial
EmptyNode(low, low) from __init__ and the gap-filling empties from append),
or an empty (bracket-free) leaf range. -/
inductive RawNode where
  | interval (low high : Int) (children : List RawNode)
  | empty (low high : Int)
deriving Repr

/-- Low bound of a raw interval tree node. -/
def rawLow : RawNode → Int
  | .interval l _ _ => l
  | .empty l _ => l

/-- High bound of a raw interval tree node. -/
def rawHigh : RawNode → Int
  | .interval _ h _ => h
  | .empty _ h => h

/-- Embedding of IntervalTree.append, on a reversed child list (Lean list
head is the Python list end): fill the gap to the previous child with an
EmptyNode when the new child is not adjacent. -/
def appendChild (childrenRev : List RawNode) (node : RawNode) : List RawNode :=
  match childrenRev with
  | prev :: _ =>
    if rawLow node ≠ rawHigh prev + 1 then
      node :: .empty (rawHigh prev + 1) (rawLow node - 1) :: childrenRev
    else node :: childrenRev
  | [] => [node]

/-- Scan loop of intervaltree.make_tree over the enumerated tokens: push a
frame on an opening bracket OP token, pop and append the completed
interval on a closing one.  Frames hold (low, reversed children); none
models the assertion failure / IndexError on unbalanced brackets. -/
def makeScan : List (Int × List RawNode) → List (Int × Tok) →
    Option (List (Int × List RawNode))
  | stack, [] => some stack
  | stack, (i, t) :: rest =>
    if t.type == OP && (t.string == "(" || t.string == "[" || t.string == "\x7b") then
      makeScan ((i, [RawNode.empty i i]) :: stack) rest
    else if t.type == OP && (t.string == ")" || t.string == "]" || t.string == "\x7d") then
      match stack with
      | (lo, chRev) :: stack2 =>
        let node := RawNode.interval lo i chRev.reverse
        match stack2 with
        | (plo, pch) :: stack3 => makeScan ((plo, appendChild pch node) :: stack3) rest
        | [] => none
      | [] => none
    else makeScan stack rest

/-- Embedding of intervaltree.make_tree without the final finalize() call:
scan the tokens, assert the stack is back to the root frame, and return
the Root node with low 0 and high len(toks). -/
def makeRaw (toks : List Tok) : Option RawNode :=
  match makeScan [((0 : Int), [RawNode.empty 0 0])]
      (toks.enum.map (fun p => ((p.1 : Int), p.2))) with
  | some [(_, chRev)] => some (.interval 0 (toks.length) chRev.reverse)
  | _ => none

/-- Finalized interval tree node: children with the initial empty popped
and a trailing empty appended when needed, plus the precomputed _low and
_high arrays used by the bisect queries. -/
inductive FNode where
  | interval (low high : Int) (children : List FNode) (lows highs : List Int)
  | empty (low high : Int)
deriving Repr

/-- Low bound of a finalized node. -/
def fLow : FNode → Int
  | .interval l _ _ _ _ => l
  | .empty l _ => l

/-- High bound of a finalized node. -/
def fHigh : FNode → Int
  | .interval _ h _ _ _ => h
  | .empty _ h => h

mutual

/-- Embedding of IntervalTree.finalize, including the loop-variable slip
of the source: the comprehensions [c.low for low in self.children] and
[c.high for low in self.children] iterate with the variable low but read
c, which is still bound to the last element of the pre-append children
list from the preceding for loop, so _low and _high are filled with that
single child's bounds repeated. -/
def finalize : RawNode → FNode
  | .empty l h => .empty l h
  | .interval l h ch =>
    let fch := finalizeList ch
    let fch2 :=
      match fch.getLast? with
      | some lastc =>
        if fHigh lastc < h - 1 then fch ++ [FNode.empty (fHigh lastc + 1) (h - 1)]
        else fch
      | none => fch
    let fch3 := fch2.drop 1
    let lows :=
      match ch.getLast? with
      | some c => List.replicate fch3.length (rawLow c)
      | none => []
    let highs :=
      match ch.getLast? with
      | some c => List.replicate fch3.length (rawHigh c)
      | none => []
    .interval l h fch3 lows highs

/-- List helper for finalize. -/
def finalizeList : List RawNode → List FNode
  | [] => []
  | c :: cs => finalize c :: finalizeList cs

end

/-- Loop of Python bisect.bisect_right: binary search returning the
insertion point to the right of existing entries equal to x; the fuel
only bounds the recursion (the interval shrinks every step, so length + 1
always suffices). -/
def bisectRightGo (a : List Int) (x : Int) : Nat → Nat → Nat → Nat
  | 0, lo, _ => lo
  | fuel + 1, lo, hi =>
    if lo < hi then
      if x < a.getD ((lo + hi) / 2) 0 then bisectRightGo a x fuel lo ((lo + hi) / 2)
      else bisectRightGo a x fuel ((lo + hi) / 2 + 1) hi
    else lo

/-- Embedding of bisect.bisect_right over the whole list. -/
def bisectRight (a : List Int) (x : Int) : Nat :=
  bisectRightGo a x (a.length + 1) 0 a.length

/-- Loop of Python bisect.bisect_left, fueled like bisectRightGo. -/
def bisectLeftGo (a : List Int) (x : Int) : Nat → Nat → Nat → Nat
  | 0, lo, _ => lo
  | fuel + 1, lo, hi =>
    if lo < hi then
      if a.getD ((lo + hi) / 2) 0 < x then bisectLeftGo a x fuel ((lo + hi) / 2 + 1) hi
      else bisectLeftGo a x fuel lo ((lo + hi) / 2)
    else lo

/-- Embedding of bisect.bisect_left over the whole list. -/
def bisectLeft (a : List Int) (x : Int) : Nat :=
  bisectLeftGo a x (a.length + 1) 0 a.length

/-- Embedding of IntervalTree.query_low / EmptyNode.query_low. -/
def queryLow (n : FNode) (low : Int) : Int :=
  match n with
  | .interval l _ _ _ _ => l
  | .empty _ _ => low

/-- Embedding of IntervalTree.query_high / EmptyNode.query_high. -/
def queryHigh (n : FNode) (high : Int) : Int :=
  match n with
  | .interval _ h _ _ _ => h
  | .empty _ _ => high

mutual

/-- Size of a finalized interval tree, used to provide sufficient fuel
for the query recursion. -/
def sizeF : FNode → Nat
  | .empty _ _ => 1
  | .interval _ _ ch _ _ => 1 + sizeFList ch

/-- List helper for sizeF. -/
def sizeFList : List FNode → Nat
  | [] => 0
  | c :: cs => sizeF c + sizeFList cs

end

mutual

/-- Embedding of IntervalTree.query_interval (non-root dispatch):
EmptyNode returns the query unchanged; an interval node widens to its own
bounds when the query touches one of them, and otherwise recurses via
_query_interval.  The fuel only bounds the recursion depth (the tree size
always suffices, since every step descends into a child). -/
def queryIntervalGo : Nat → FNode → Int → Int → Option (Int × Int)
  | 0, _, _, _ => none
  | _ + 1, .empty _ _, low, high => some (low, high)
  | fuel + 1, .interval l h ch lows highs, low, high =>
    if low = l then some (low, h)
    else if high = h then some (l, high)
    else queryInnerGo fuel (.interval l h ch lows highs) low high

/-- Embedding of IntervalTree._query_interval: locate the child holding
low with bisect_right on the precomputed _low array (Python indexing, so
-1 wraps to the last child), recurse into it when it also holds high, and
otherwise combine query_low of that child with query_high of the child
located with bisect_left on _high. -/
def queryInnerGo : Nat → FNode → Int → Int → Option (Int × Int)
  | 0, _, _, _ => none
  | _ + 1, .empty _ _, _, _ => none
  | fuel + 1, .interval _ _ ch lows highs, low, high =>
    match pyGet ch ((bisectRight lows low : Int) - 1) with
    | none => none
    | some A =>
      if high ≤ fHigh A then queryIntervalGo fuel A low high
      else
        match ch.get? (bisectLeft highs high) with
        | none => none
        | some B => some (queryLow A low, queryHigh B high)

end

/-- Embedding of IntervalTree.query_interval with sufficient fuel. -/
def queryInterval (n : FNode) (low high : Int) : Option (Int × Int) :=
  queryIntervalGo (2 * sizeF n + 2) n low high

/-- Embedding of Root.query_interval: the root skips the boundary
shortcuts and goes straight to _query_interval. -/
def rootQuery (n : FNode) (low high : Int) : Option (Int × Int) :=
  queryInnerGo (2 * sizeF n + 2) n low high

/-- Full pipeline of intervaltree.make_tree: build the raw tree from the
tokens and finalize it. -/
def makeIntervalTree (toks : List Tok) : Option FNode :=
  (makeRaw toks).map finalize

mutual

/-- Modelled from the spec: the finalize step as the spec and the
source's docstring intend it, precomputing the arrays of the (finalized)
children's own low and high bounds in child order; used only to contrast
with the behaviour of the source's finalize. -/
def specFinalize : RawNode → FNode
  | .empty l h => .empty l h
  | .interval l h ch =>
    let fch := specFinalizeList ch
    let fch2 :=
      match fch.getLast? with
      | some lastc =>
        if fHigh lastc < h - 1 then fch ++ [FNode.empty (fHigh lastc + 1) (h - 1)]
        else fch
      | none => fch
    let fch3 := fch2.drop 1
    .interval l h fch3 (fch3.map fLow) (fch3.map fHigh)

/-- List helper for specFinalize. -/
def specFinalizeList : List RawNode → List FNode
  | [] => []
  | c :: cs => specFinalize c :: specFinalizeList cs

end


/-- Children of an input tree node. -/
def ANode.children : ANode → List ANode
  | .mk _ _ _ ch => ch

mutual

/-- Number of nodes of a tree. -/
def sizeA : ANode → Nat
  | .mk _ _ _ ch => 1 + sizeAList ch

/-- Total number of nodes of a list of trees. -/
def sizeAList : List ANode → Nat
  | [] => 0
  | c :: cs => sizeA c + sizeAList cs

end

/-- Entry of the explicit work stack of util.visit_tree: (node, par_value,
_PREVISIT) before the node is expanded, and (node, par_value, value) for
the pending postvisit call. -/
inductive VEntry (P V : Type) where
  | pre (n : ANode) (pv : P)
  | post (n : ANode) (pv : P) (v : V)

/-- Measure of a stack entry, used only for termination: an unexpanded
node weighs twice its subtree size, a pending postvisit weighs one. -/
def entryWeight {P V : Type} : VEntry P V → Nat
  | .pre n _ => 2 * sizeA n
  | .post _ _ _ => 1

/-- Measure of the whole work stack. -/
def stackWeight {P V : Type} (stack : List (VEntry P V)) : Nat :=
  (stack.map entryWeight).sum

/-- Embedding of the while loop of util.visit_tree: pop an entry; on
_PREVISIT run previsit, push the postvisit entry and then the children (in
reverse, so the first child is processed first: the Lean list head is the
Python list end), and otherwise run postvisit and record its value as ret.
The Python callbacks mutate shared state (the node annotations); the
embedding threads that state S explicitly. -/
def visitLoop {S P V R : Type} (previsit : S → ANode → P → S × P × V)
    (postvisit : S → ANode → P → V → S × R) :
    List (VEntry P V) → S → Option R → S × Option R
  | [], s, ret => (s, ret)
  | .pre n pv :: rest, s, ret =>
    let q := previsit s n pv
    visitLoop previsit postvisit
      ((n.children.map (fun c => VEntry.pre c q.2.1)) ++ VEntry.post n pv q.2.2 :: rest)
      q.1 ret
  | .post n pv v :: rest, s, ret =>
    let q := postvisit s n pv v
    visitLoop previsit postvisit rest q.1 (some q.2)
termination_by stack _ _ => stackWeight stack
decreasing_by
  · have key : ∀ (l : List ANode) (pv2 : P),
        ((l.map (fun c => VEntry.pre (V := V) c pv2)).map entryWeight).sum =
          2 * sizeAList l := by
      intro l pv2
      induction l with
      | nil => simp [sizeAList]
      | cons c cs ih =>
        simp only [List.map_cons, List.sum_cons, ih, sizeAList, entryWeight]
        ring
    simp only [stackWeight, List.map_append, List.sum_append, List.map_cons,
      List.sum_cons, key, entryWeight]
    have hrel : sizeA n = 1 + sizeAList n.children := by
      cases n with
      | mk k st a ch => simp [sizeA, ANode.children]
    omega
  · simp only [stackWeight, List.map_cons, List.sum_cons, entryWeight]
    omega

/-- Embedding of util.visit_tree: run the loop from the single-entry stack
[(node, None, _PREVISIT)] with ret = None; pv0 is the caller's initial
par_value (None in the source). -/
def visitTreeSt {S P V R : Type} (previsit : S → ANode → P → S × P × V)
    (postvisit : S → ANode → P → V → S × R) (pv0 : P) (t : ANode) (s : S) :
    S × Option R :=
  visitLoop previsit postvisit [VEntry.pre t pv0] s none

mutual

/-- Reference recursive traversal: previsit the node, recursively visit
the children left to right, postvisit the node. -/
def recVisit {S P V R : Type} (previsit : S → ANode → P → S × P × V)
    (postvisit : S → ANode → P → V → S × R) : ANode → P → S → S × R
  | .mk k st a ch, pv, s =>
    let q := previsit s (.mk k st a ch) pv
    let s3 := recVisitList previsit postvisit ch q.2.1 q.1
    postvisit s3 (.mk k st a ch) pv q.2.2

/-- List helper for recVisit: visits each tree in order, threading the
state and discarding the per-tree results (as the source loop does). -/
def recVisitList {S P V R : Type} (previsit : S → ANode → P → S × P × V)
    (postvisit : S → ANode → P → V → S × R) : List ANode → P → S → S
  | [], _, s => s
  | c :: cs, pv, s =>
    let q := recVisit previsit postvisit c pv s
    recVisitList previsit postvisit cs pv q.1

end

mutual

/-- Nodes of a tree in pre-order. -/
def preorder : ANode → List ANode
  | .mk k st a ch => .mk k st a ch :: preorderList ch

/-- List helper for preorder. -/
def preorderList : List ANode → List ANode
  | [] => []
  | c :: cs => preorder c ++ preorderList cs

end


/-- Convenience constructor for concrete tokens in examples: kind, index,
string, with character offsets equal to the index and index + 1. -/
def mkTok (ty i : Nat) (s : String) : Tok :=
  { type := ty, string := s, index := i, startpos := i, endpos := i + 1 }

/-- Concrete token sequence of eight coding tokens (seven names and the
end marker), used by the containment counterexample and witnesses. -/
def toksPlain : List Tok :=
  [mkTok NAME 0 "a", mkTok NAME 1 "b", mkTok NAME 2 "c", mkTok NAME 3 "d",
   mkTok NAME 4 "e", mkTok NAME 5 "f", mkTok NAME 6 "g", mkTok ENDMARKER 7 ""]

/-- Concrete tree whose second child is anchored before its parent's
anchor: parent at token 5 with children at tokens 6 and 3. -/
def treeBad : ANode :=
  .mk "name" false (some 5)
    [.mk "name" false (some 6) [], .mk "name" false (some 3) []]

/-- Concrete tree whose pre-order anchors 0, 1, 2, 4, 5, 6 are
nondecreasing. -/
def treeGood : ANode :=
  .mk "name" false (some 0)
    [.mk "name" false (some 1) [.mk "name" false (some 2) []],
     .mk "name" false (some 4)
       [.mk "name" false (some 5) [], .mk "name" false (some 6) []]]

/-- Concrete token sequence of the statement x = 1 followed by a trailing
comment, its NEWLINE and the end marker. -/
def toksCmt : List Tok :=
  [mkTok NAME 0 "x", mkTok OP 1 "=", mkTok NUMBER 2 "1",
   mkTok COMMENT 3 "# c", mkTok NEWLINE 4 "", mkTok ENDMARKER 5 ""]

/-- Concrete token sequence with two top-level bracket pairs:
a ( b ) ( c ) x. -/
def toksBrk : List Tok :=
  [mkTok NAME 0 "a", mkTok OP 1 "(", mkTok NAME 2 "b", mkTok OP 3 ")",
   mkTok OP 4 "(", mkTok NAME 5 "c", mkTok OP 6 ")", mkTok NAME 7 "x"]

/-- Concrete token sequence of the call f ( a ) with NEWLINE and end
marker. -/
def toksCall : List Tok :=
  [mkTok NAME 0 "f", mkTok OP 1 "(", mkTok NAME 2 "a", mkTok OP 3 ")",
   mkTok NEWLINE 4 "", mkTok ENDMARKER 5 ""]

/-- Source text of the continuation-line expression example: the tokens of
toksNL point into this string. -/
def textNL : String := "a +\nb\n"

/-- Concrete token sequence of an unparenthesized expression continued
over a non-logical newline: a + NL b NEWLINE end-marker, with offsets into
textNL. -/
def toksNL : List Tok :=
  [{ type := NAME, string := "a", index := 0, startpos := 0, endpos := 1 },
   { type := OP, string := "+", index := 1, startpos := 2, endpos := 3 },
   { type := NL, string := "\n", index := 2, startpos := 3, endpos := 4 },
   { type := NAME, string := "b", index := 3, startpos := 4, endpos := 5 },
   { type := NEWLINE, string := "\n", index := 4, startpos := 5, endpos := 6 },
   { type := ENDMARKER, string := "", index := 5, startpos := 6, endpos := 6 }]

/-- Source text of the parenthesized two-line expression example. -/
def textPar : String := "(a,\nb)\n"

/-- Concrete token sequence of ( a , NL b ) NEWLINE end-marker, with
offsets into textPar. -/
def toksPar : List Tok :=
  [{ type := OP, string := "(", index := 0, startpos := 0, endpos := 1 },
   { type := NAME, string := "a", index := 1, startpos := 1, endpos := 2 },
   { type := OP, string := ",", index := 2, startpos := 2, endpos := 3 },
   { type := NL, string := "\n", index := 3, startpos := 3, endpos := 4 },
   { type := NAME, string := "b", index := 4, startpos := 4, endpos := 5 },
   { type := OP, string := ")", index := 5, startpos := 5, endpos := 6 },
   { type := NEWLINE, string := "\n", index := 6, startpos := 6, endpos := 7 },
   { type := ENDMARKER, string := "", index := 7, startpos := 7, endpos := 7 }]


/-- The first token (the name a) of toksNL. -/
def mkNLTokA : Tok :=
  { type := NAME, string := "a", index := 0, startpos := 0, endpos := 1 }

/-- The token of the name b in toksNL. -/
def mkNLTokB : Tok :=
  { type := NAME, string := "b", index := 3, startpos := 4, endpos := 5 }

/-- View of an Except result as an Option (ok versus any error). -/
def exceptOk {A : Type} : Except PyErr A → Option A
  | .ok a => some a
  | .error _ => none

theorem pyGet_nonneg {A : Type} (l : List A) (i : Int) (h : 0 ≤ i) :
    pyGet l i = l.get? i.toNat := by
  simp [pyGet, h]

theorem pyGet_isSome_bound {A : Type} {l : List A} {i : Int} {t : A}
    (h : pyGet l i = some t) : 0 ≤ i + l.length := by
  by_cases h0 : 0 ≤ i
  · omega
  · unfold pyGet at h
    rw [if_neg h0] at h
    by_cases h1 : 0 ≤ i + l.length
    · exact h1
    · rw [if_neg h1] at h
      exact absurd h (by simp)

theorem idxOK_get? {l : List Tok} {n : Nat} (h : idxOK l n = true) :
    ∀ i t, l.get? i = some t → t.index = n + i := by
  induction l generalizing n with
  | nil => intro i t hi; simp at hi
  | cons a rest ih =>
    simp only [idxOK, Bool.and_eq_true, beq_iff_eq] at h
    obtain ⟨h1, h2⟩ := h
    intro i t hi
    cases i with
    | zero =>
      simp only [List.get?_cons_zero, Option.some.injEq] at hi
      subst hi
      omega
    | succ j =>
      simp only [List.get?_cons_succ] at hi
      have := ih h2 j t hi
      omega

theorem eofOnlyLast_spec {l : List Tok} (h : eofOnlyLast l = true) :
    ∀ i t, l.get? i = some t → (isEOF t.type = true ↔ i = l.length - 1) := by
  induction l with
  | nil => intro i t hi; simp at hi
  | cons a rest ih =>
    intro i t hi
    cases rest with
    | nil =>
      cases i with
      | zero =>
        simp only [List.get?_cons_zero, Option.some.injEq] at hi
        subst hi
        simp only [eofOnlyLast] at h
        simp [h]
      | succ j => simp at hi
    | cons b rest2 =>
      simp only [eofOnlyLast, Bool.and_eq_true, Bool.not_eq_true'] at h
      obtain ⟨h1, h2⟩ := h
      cases i with
      | zero =>
        simp only [List.get?_cons_zero, Option.some.injEq] at hi
        subst hi
        simp only [List.length_cons]
        constructor
        · intro he; rw [he] at h1; exact absurd h1 (by simp)
        · intro he; omega
      | succ j =>
        simp only [List.get?_cons_succ] at hi
        have := ih h2 j t hi
        simp only [List.length_cons] at this ⊢
        rw [this]
        omega

theorem tokensWF_ne_nil {toks : List Tok} (h : tokensWF toks = true) :
    toks ≠ [] := by
  intro hc
  subst hc
  exact absurd h (by decide)

theorem tokensWF_idx {toks : List Tok} (h : tokensWF toks = true) :
    ∀ i t, toks.get? i = some t → t.index = i := by
  intro i t hi
  have h2 : idxOK toks 0 = true := by
    simp only [tokensWF, Bool.and_eq_true] at h
    exact h.1
  have := idxOK_get? h2 i t hi
  omega

theorem tokensWF_eof_iff {toks : List Tok} (h : tokensWF toks = true) :
    ∀ i t, toks.get? i = some t → (isEOF t.type = true ↔ i = toks.length - 1) := by
  have h2 : eofOnlyLast toks = true := by
    simp only [tokensWF, Bool.and_eq_true] at h
    exact h.2
  exact eofOnlyLast_spec h2

theorem tokensWF_not_eof {toks : List Tok} (h : tokensWF toks = true) :
    ∀ i t, toks.get? i = some t → i < toks.length - 1 → isEOF t.type = false := by
  intro i t hi hlt
  have hiff := tokensWF_eof_iff h i t hi
  cases he : isEOF t.type
  · rfl
  · exact absurd (hiff.mp he) (by omega)

theorem tokensWF_last_eof {toks : List Tok} (h : tokensWF toks = true) :
    ∃ t, toks.get? (toks.length - 1) = some t ∧ isEOF t.type = true := by
  have hne := tokensWF_ne_nil h
  have hlen : 0 < toks.length := List.length_pos.mpr hne
  cases hg : toks.get? (toks.length - 1) with
  | none =>
    have := List.get?_eq_none.mp hg
    omega
  | some t => exact ⟨t, rfl, (tokensWF_eof_iff h _ t hg).mpr rfl⟩

theorem eof_not_nonCoding {ty : Nat} (h : isEOF ty = true) :
    isNonCoding ty = false := by
  simp only [isEOF, beq_iff_eq] at h
  subst h
  decide

theorem skipFwdGo_step {toks : List Tok} {fuel i : Nat} :
    skipFwdGo toks (fuel + 1) i =
      match toks.get? i with
      | none => none
      | some t => if isNonCoding t.type then skipFwdGo toks fuel (i + 1)
          else some t := rfl

theorem skipFwd_none_of_ge {toks : List Tok} {i : Nat}
    (h : toks.length ≤ i) : skipFwd toks i = none := by
  have hn : toks.get? i = none := List.get?_eq_none.mpr h
  rw [skipFwd, skipFwdGo_step, hn]

theorem skipFwd_found {toks : List Tok} {i : Nat} {u : Tok}
    (hg : toks.get? i = some u) (hc : isNonCoding u.type = false) :
    skipFwd toks i = some u := by
  rw [skipFwd, skipFwdGo_step, hg]
  simp [hc]

theorem skipFwdGo_some_spec {toks : List Tok} :
    ∀ {fuel : Nat} {i : Nat} {u : Tok}, skipFwdGo toks fuel i = some u →
    ∃ j, i ≤ j ∧ toks.get? j = some u ∧ isNonCoding u.type = false ∧
      ∀ k v, i ≤ k → k < j → toks.get? k = some v → isNonCoding v.type = true := by
  intro fuel
  induction fuel with
  | zero => intro i u h; exact absurd h (by simp [skipFwdGo])
  | succ f ih =>
    intro i u h
    rw [skipFwdGo_step] at h
    cases hg : toks.get? i with
    | none => rw [hg] at h; exact absurd h (by simp)
    | some t =>
      rw [hg] at h
      cases hc : isNonCoding t.type with
      | false =>
        simp only [hc, Bool.false_eq_true, if_false, Option.some.injEq] at h
        subst h
        exact ⟨i, le_refl i, hg, hc, fun k v hk1 hk2 _ => absurd hk1 (by omega)⟩
      | true =>
        simp only [hc, if_true] at h
        obtain ⟨j, hj1, hj2, hj3, hj4⟩ := ih h
        refine ⟨j, by omega, hj2, hj3, ?_⟩
        intro k v hk1 hk2 hkv
        by_cases hki : k = i
        · subst hki
          rw [hg] at hkv
          cases hkv
          exact hc
        · exact hj4 k v (by omega) hk2 hkv

theorem skipFwd_some_spec {toks : List Tok} {i : Nat} {u : Tok}
    (h : skipFwd toks i = some u) :
    ∃ j, i ≤ j ∧ toks.get? j = some u ∧ isNonCoding u.type = false ∧
      ∀ k v, i ≤ k → k < j → toks.get? k = some v → isNonCoding v.type = true :=
  skipFwdGo_some_spec h

theorem skipFwdGo_isSome {toks : List Tok} :
    ∀ {fuel i j : Nat} {v : Tok}, i ≤ j → toks.length - i < fuel →
      toks.get? j = some v → isNonCoding v.type = false →
      ∃ u, skipFwdGo toks fuel i = some u := by
  intro fuel
  induction fuel with
  | zero =>
    intro i j v _ hb hv _
    have := (List.get?_eq_some.mp hv).1
    omega
  | succ f ih =>
    intro i j v hij hb hv hc
    rw [skipFwdGo_step]
    cases hg : toks.get? i with
    | none =>
      have h1 := List.get?_eq_none.mp hg
      have h2 := (List.get?_eq_some.mp hv).1
      omega
    | some t =>
      cases htc : isNonCoding t.type with
      | false => exact ⟨t, by simp [htc]⟩
      | true =>
        have hne : i ≠ j := by
          intro he
          subst he
          rw [hg] at hv
          cases hv
          rw [htc] at hc
          exact absurd hc (by simp)
        have h2 := (List.get?_eq_some.mp hv).1
        have hbound : toks.length - (i + 1) < f := by omega
        obtain ⟨u, hu⟩ := ih (by omega) hbound hv hc
        exact ⟨u, by simp [htc, hu]⟩

theorem skipFwd_isSome {toks : List Tok} {i j : Nat} {v : Tok}
    (hij : i ≤ j) (hv : toks.get? j = some v) (hc : isNonCoding v.type = false) :
    ∃ u, skipFwd toks i = some u :=
  skipFwdGo_isSome hij (by omega) hv hc

theorem skipBwdGo_step {toks : List Tok} {fuel : Nat} {i : Int} :
    skipBwdGo toks (fuel + 1) i =
      match pyGet toks i with
      | none => none
      | some t => if isNonCoding t.type then skipBwdGo toks fuel (i - 1)
          else some t := rfl

theorem skipBwd_found {toks : List Tok} {i : Int} {u : Tok}
    (hg : pyGet toks i = some u) (hc : isNonCoding u.type = false) :
    skipBwd toks i = some u := by
  rw [skipBwd]
  show skipBwdGo toks (2 * toks.length + 1 + 1) i = some u
  rw [skipBwdGo_step, hg]
  simp [hc]

theorem skipBwdGo_some_spec {toks : List Tok} :
    ∀ {fuel : Nat} {i : Int} {u : Tok}, skipBwdGo toks fuel i = some u →
    ∃ j : Int, j ≤ i ∧ pyGet toks j = some u ∧ isNonCoding u.type = false ∧
      ∀ (k : Int) (v : Tok), j < k → k ≤ i → pyGet toks k = some v →
        isNonCoding v.type = true := by
  intro fuel
  induction fuel with
  | zero => intro i u h; exact absurd h (by simp [skipBwdGo])
  | succ f ih =>
    intro i u h
    rw [skipBwdGo_step] at h
    cases hg : pyGet toks i with
    | none => rw [hg] at h; exact absurd h (by simp)
    | some t =>
      rw [hg] at h
      cases hc : isNonCoding t.type with
      | false =>
        simp only [hc, Bool.false_eq_true, if_false, Option.some.injEq] at h
        subst h
        exact ⟨i, le_refl i, hg, hc, fun k v hk1 hk2 _ => absurd hk1 (by omega)⟩
      | true =>
        simp only [hc, if_true] at h
        obtain ⟨j, hj1, hj2, hj3, hj4⟩ := ih h
        refine ⟨j, by omega, hj2, hj3, ?_⟩
        intro k v hk1 hk2 hkv
        by_cases hki : k = i
        · subst hki
          rw [hg] at hkv
          cases hkv
          exact hc
        · exact hj4 k v (by omega) (by omega) hkv

theorem skipBwd_some_spec {toks : List Tok} {i : Int} {u : Tok}
    (h : skipBwd toks i = some u) :
    ∃ j : Int, j ≤ i ∧ pyGet toks j = some u ∧ isNonCoding u.type = false ∧
      ∀ (k : Int) (v : Tok), j < k → k ≤ i → pyGet toks k = some v →
        isNonCoding v.type = true :=
  skipBwdGo_some_spec h

theorem skipBwdGo_isSome {toks : List Tok} :
    ∀ {fuel : Nat} {i j : Int} {v : Tok}, i < (toks.length : Int) →
      (i - j).toNat < fuel → j ≤ i → pyGet toks j = some v →
      isNonCoding v.type = false →
      ∃ u, skipBwdGo toks fuel i = some u := by
  intro fuel
  induction fuel with
  | zero =>
    intro i j v _ hb hij _ _
    omega
  | succ f ih =>
    intro i j v hilen hb hij hv hc
    have hjb := pyGet_isSome_bound hv
    rw [skipBwdGo_step]
    cases hg : pyGet toks i with
    | none =>
      by_cases h0 : 0 ≤ i
      · rw [pyGet_nonneg toks i h0] at hg
        have h1 := List.get?_eq_none.mp hg
        have hti : (i.toNat : Int) = i := Int.toNat_of_nonneg h0
        omega
      · unfold pyGet at hg
        rw [if_neg h0, if_pos (by omega)] at hg
        have h1 := List.get?_eq_none.mp hg
        have hti : ((i + (toks.length : Int)).toNat : Int) = i + toks.length :=
          Int.toNat_of_nonneg (by omega)
        omega
    | some t =>
      cases htc : isNonCoding t.type with
      | false => exact ⟨t, by simp [htc]⟩
      | true =>
        have hne : i ≠ j := by
          intro he
          subst he
          rw [hg] at hv
          cases hv
          rw [htc] at hc
          exact absurd hc (by simp)
        obtain ⟨u, hu⟩ := @ih (i - 1) j v (by omega) (by omega) (by omega) hv hc
        exact ⟨u, by simp [htc, hu]⟩

theorem skipBwd_isSome {toks : List Tok} {i j : Int} {v : Tok}
    (hilen : i < (toks.length : Int))
    (hij : j ≤ i) (hv : pyGet toks j = some v) (hc : isNonCoding v.type = false) :
    ∃ u, skipBwd toks i = some u := by
  have hjb := pyGet_isSome_bound hv
  exact skipBwdGo_isSome hilen (by omega) hij hv hc


theorem findGo_fwd_spec {toks : List Tok} {ty : Nat} {s : Option String}
    (hwf : tokensWF toks = true) :
    ∀ fuel i t, toks.get? i = some t → toks.length - i ≤ fuel →
    ∃ j r, i ≤ j ∧ toks.get? j = some r ∧
      findGo toks ty s false fuel t = some r ∧
      (matchToken r ty s = true ∨ isEOF r.type = true) ∧
      (matchToken r ty s = false → j = toks.length - 1) ∧
      ∀ k u, i ≤ k → k < j → toks.get? k = some u → matchToken u ty s = false := by
  intro fuel
  induction fuel with
  | zero =>
    intro i t hg hfuel
    have := (List.get?_eq_some.mp hg).1
    omega
  | succ f ih =>
    intro i t hg hfuel
    have hidx := tokensWF_idx hwf i t hg
    have hlt := (List.get?_eq_some.mp hg).1
    by_cases hstop : (matchToken t ty s || isEOF t.type) = true
    · refine ⟨i, t, le_refl i, hg, ?_, ?_, ?_, ?_⟩
      · simp only [findGo, hstop, if_true]
      · simpa using hstop
      · intro hm
        simp only [Bool.or_eq_true] at hstop
        rcases hstop with h1 | h1
        · rw [hm] at h1; exact absurd h1 (by simp)
        · exact (tokensWF_eof_iff hwf i t hg).mp h1
      · intro k u hk1 hk2 _; omega
    · have hm : matchToken t ty s = false := by
        simp only [Bool.or_eq_true, not_or] at hstop
        simpa using hstop.1
      have he : isEOF t.type = false := by
        simp only [Bool.or_eq_true, not_or] at hstop
        simpa using hstop.2
      have hne : i ≠ toks.length - 1 := by
        intro hc
        rw [(tokensWF_eof_iff hwf i t hg).mpr hc] at he
        exact absurd he (by simp)
      have hi1 : i + 1 < toks.length := by omega
      cases hg2 : toks.get? (i + 1) with
      | none =>
        have := List.get?_eq_none.mp hg2
        omega
      | some t2 =>
        obtain ⟨j, r, hj1, hj2, hj3, hj4, hj5, hj6⟩ :=
          ih (i + 1) t2 hg2 (by omega)
        refine ⟨j, r, by omega, hj2, ?_, hj4, hj5, ?_⟩
        · have hadv : nextToken toks true t = some t2 := by
            simp only [nextToken, if_true, hidx]
            exact hg2
          rw [findGo, if_neg hstop]
          simp only [Bool.false_eq_true, if_false, hadv]
          exact hj3
        · intro k u hk1 hk2 hku
          by_cases hki : k = i
          · subst hki
            rw [hg] at hku
            cases hku
            exact hm
          · exact hj6 k u (by omega) hk2 hku

/-- Characterization of forward find_token on a well-formed token list:
it returns the first token at index at least start.index matching the
predicate, or the ENDMARKER sentinel when there is no such token. -/
theorem findToken_fwd_spec {toks : List Tok} {ty : Nat} {s : Option String}
    {i : Nat} {t : Tok} (hwf : tokensWF toks = true)
    (hg : toks.get? i = some t) :
    ∃ j r, i ≤ j ∧ toks.get? j = some r ∧
      findToken toks t ty s false = some r ∧
      (matchToken r ty s = true ∨ isEOF r.type = true) ∧
      (matchToken r ty s = false → j = toks.length - 1) ∧
      ∀ k u, i ≤ k → k < j → toks.get? k = some u → matchToken u ty s = false :=
  findGo_fwd_spec hwf (toks.length + 1) i t hg (by omega)

theorem ANode.inductionOn {P : ANode → Prop}
    (h : ∀ k s a ch, (∀ c, c ∈ ch → P c) → P (.mk k s a ch)) : ∀ t, P t :=
  fun t =>
  match t with
  | .mk k s a ch => h k s a ch (fun c hc => ANode.inductionOn h c)
termination_by t => sizeOf t
decreasing_by
  have := List.sizeOf_lt_of_mem hc
  simp only [ANode.mk.sizeOf_spec]
  omega

theorem visitLoop_ret_irrel {S P V R : Type} (previsit : S → ANode → P → S × P × V)
    (postvisit : S → ANode → P → V → S × R) :
    ∀ (stack : List (VEntry P V)) (s : S) (r1 r2 : Option R), stack ≠ [] →
      visitLoop previsit postvisit stack s r1 = visitLoop previsit postvisit stack s r2
  | [], _, _, _, h => absurd rfl h
  | .pre n pv :: rest, s, r1, r2, _ => by
    rw [visitLoop, visitLoop]
    exact visitLoop_ret_irrel previsit postvisit _ _ r1 r2 (by simp)
  | .post n pv v :: rest, s, r1, r2, _ => by
    rw [visitLoop, visitLoop]
termination_by stack _ _ _ _ => stackWeight stack
decreasing_by
  have key : ∀ (l : List ANode) (pv2 : P),
      ((l.map (fun c => VEntry.pre (V := V) c pv2)).map entryWeight).sum =
        2 * sizeAList l := by
    intro l pv2
    induction l with
    | nil => simp [sizeAList]
    | cons c cs ih =>
      simp only [List.map_cons, List.sum_cons, ih, sizeAList, entryWeight]
      ring
  simp only [stackWeight, List.map_append, List.sum_append, List.map_cons,
    List.sum_cons, key, entryWeight]
  have hrel : sizeA n = 1 + sizeAList n.children := by
    cases n with
    | mk k st a ch => simp [sizeA, ANode.children]
  omega

theorem visitLoop_pre_eq {S P V R : Type} (previsit : S → ANode → P → S × P × V)
    (postvisit : S → ANode → P → V → S × R) :
    ∀ t : ANode, ∀ (pv : P) (rest : List (VEntry P V)) (s : S) (ret : Option R),
      visitLoop previsit postvisit (VEntry.pre t pv :: rest) s ret =
        visitLoop previsit postvisit rest
          (recVisit previsit postvisit t pv s).1
          (some (recVisit previsit postvisit t pv s).2) := by
  intro t
  induction t using ANode.inductionOn with
  | h k st a ch ih =>
    intro pv rest s ret
    have hlist : ∀ cs, (∀ c, c ∈ cs → c ∈ ch) →
        ∀ (pv2 : P) (rest2 : List (VEntry P V)), rest2 ≠ [] → ∀ (s2 : S) (ret2 : Option R),
        visitLoop previsit postvisit ((cs.map (fun c => VEntry.pre c pv2)) ++ rest2) s2 ret2 =
          visitLoop previsit postvisit rest2
            (recVisitList previsit postvisit cs pv2 s2) ret2 := by
      intro cs
      induction cs with
      | nil =>
        intro _ pv2 rest2 _ s2 ret2
        simp [recVisitList]
      | cons c cs ihcs =>
        intro hsub pv2 rest2 hne s2 ret2
        simp only [List.map_cons, List.cons_append]
        rw [ih c (hsub c (by simp))]
        rw [ihcs (fun x hx => hsub x (by simp [hx])) pv2 rest2 hne]
        simp only [recVisitList]
        exact visitLoop_ret_irrel previsit postvisit rest2 _ _ ret2 hne
    conv_lhs => rw [visitLoop]
    simp only [ANode.children]
    rw [hlist ch (fun c hc => hc) _ _ (by simp)]
    conv_lhs => rw [visitLoop]
    simp only [recVisit]

/-- Length of the pre-order listing equals the node count. -/
theorem preorder_length_tree : ∀ t : ANode, (preorder t).length = sizeA t := by
  intro t
  induction t using ANode.inductionOn with
  | h k st a ch ih =>
    have hl : ∀ cs, (∀ c, c ∈ cs → c ∈ ch) →
        (preorderList cs).length = sizeAList cs := by
      intro cs
      induction cs with
      | nil => intro _; simp [preorderList, sizeAList]
      | cons c cs2 ihc =>
        intro hsub
        simp only [preorderList, sizeAList, List.length_append]
        rw [ih c (hsub c (by simp)), ihc (fun x hx => hsub x (by simp [hx]))]
    simp only [preorder, sizeA, List.length_cons]
    rw [hl ch (fun c hc => hc)]
    omega

theorem recVisit_record (t : ANode) :
    ∀ (s : List ANode),
      recVisit (fun s n _ => (s ++ [n], (), ())) (fun s _ _ _ => (s, ())) t () s =
        (s ++ preorder t, ()) := by
  induction t using ANode.inductionOn with
  | h k st a ch ih =>
    intro s
    have hl : ∀ cs, (∀ c, c ∈ cs → c ∈ ch) → ∀ s2 : List ANode,
        recVisitList (fun s n _ => (s ++ [n], (), ()))
          (fun s _ _ _ => (s, ())) cs () s2 = s2 ++ preorderList cs := by
      intro cs
      induction cs with
      | nil => intro _ s2; simp [recVisitList, preorderList]
      | cons c cs2 ihc =>
        intro hsub s2
        simp only [recVisitList]
        rw [ih c (hsub c (by simp))]
        rw [ihc (fun x hx => hsub x (by simp [hx]))]
        simp [preorderList]
    simp only [recVisit]
    rw [hl ch (fun c hc => hc)]
    simp [preorder]

/-- C10: util.visit_tree drives both passes through an explicit work
stack rather than native call recursion.  The embedded stack loop
visitLoop/visitTreeSt is total in Lean (it carries a termination proof
for every finite tree), and on every input state and callbacks it
computes exactly the recursive pre/post traversal recVisit, whose
previsit trace lists every node of the tree exactly once (it equals the
pre-order listing, whose length is the node count) — in particular the
traversal of an arbitrarily long chain of binary operations terminates
and visits each node once, with the loop itself being a single
tail-recursive iteration over the explicit stack. -/
theorem claim_visit_tree_stack :
    (∀ (S P V R : Type) (previsit : S → ANode → P → S × P × V)
        (postvisit : S → ANode → P → V → S × R) (pv0 : P) (t : ANode) (s : S),
        visitTreeSt previsit postvisit pv0 t s =
          ((recVisit previsit postvisit t pv0 s).1,
            some (recVisit previsit postvisit t pv0 s).2)) ∧
    (∀ t : ANode,
        (visitTreeSt (fun s n _ => (s ++ [n], (), ())) (fun s _ _ _ => (s, ()))
            () t []).1 = preorder t ∧
        (preorder t).length = sizeA t) := by
  constructor
  · intro S P V R previsit postvisit pv0 t s
    unfold visitTreeSt
    rw [visitLoop_pre_eq]
    rw [visitLoop]
  · intro t
    refine ⟨?_, preorder_length_tree t⟩
    unfold visitTreeSt
    rw [visitLoop_pre_eq, visitLoop]
    rw [recVisit_record]
    simp

/-- C3: in the first-token pass, before the per-kind correction, a node
with no anchor token and a first child takes the first child's resolved
first token; a node whose first child's resolved first token strictly
precedes its anchor token also takes the first child's token; and a node
with neither anchor token nor children takes the parent-supplied fallback
token. -/
theorem claim_first_token_resolution :
    (∀ (fc : Option Tok) (pt : Option Tok),
        resolveFirstToken none (some fc) pt = .ok fc) ∧
    (∀ (a f : Tok) (pt : Option Tok), f.index < a.index →
        resolveFirstToken (some a) (some (some f)) pt = .ok (some f)) ∧
    (∀ pt : Option Tok, resolveFirstToken none none pt = .ok pt) := by
  refine ⟨fun fc pt => rfl, ?_, fun pt => rfl⟩
  intro a f pt h
  simp only [resolveFirstToken, if_pos h]
  rfl

theorem claim_first_token_resolution_witness :
    (mkTok NAME 3 "d").index < (mkTok NAME 5 "f").index ∧
      resolveFirstToken (some (mkTok NAME 5 "f")) (some (some (mkTok NAME 3 "d")))
        none = .ok (some (mkTok NAME 3 "d")) :=
  ⟨by decide,
   claim_first_token_resolution.2.1 (mkTok NAME 5 "f") (mkTok NAME 3 "d") none
     (by decide)⟩

/-- C6: on a well-formed token sequence, forward find_token starting at a
token of the sequence returns (rather than raises): the result is the
first token at index at least the start token's index that matches the
kind (and literal, if given), and when no such token exists it is the
ENDMARKER end-marker token (the last token); in particular the returned
index is never smaller than the start token's index. -/
theorem claim_find_token_forward (toks : List Tok) (i : Nat) (t : Tok)
    (ty : Nat) (s : Option String)
    (hwf : tokensWF toks = true) (hg : toks.get? i = some t) :
    ∃ j r, findToken toks t ty s false = some r ∧
      toks.get? j = some r ∧ t.index ≤ j ∧ r.index = j ∧
      (matchToken r ty s = true ∨
        (isEOF r.type = true ∧ j = toks.length - 1)) ∧
      (∀ k u, t.index ≤ k → k < j → toks.get? k = some u →
        matchToken u ty s = false) := by
  obtain ⟨j, r, hij, hjr, hfind, hstop, hnomatch, hbefore⟩ :=
    @findToken_fwd_spec toks ty s i t hwf hg
  have hti : t.index = i := tokensWF_idx hwf i t hg
  have hri : r.index = j := tokensWF_idx hwf j r hjr
  refine ⟨j, r, hfind, hjr, by omega, hri, ?_, ?_⟩
  · cases hm : matchToken r ty s with
    | true => exact Or.inl rfl
    | false =>
      refine Or.inr ⟨?_, hnomatch hm⟩
      cases hstop with
      | inl h => rw [hm] at h; exact absurd h (by simp)
      | inr h => exact h
  · intro k u hk1 hk2 hku
    exact hbefore k u (by omega) hk2 hku

theorem claim_find_token_forward_witness :
    tokensWF toksCmt = true ∧
      ∃ j r, findToken toksCmt (mkTok NAME 0 "x") NEWLINE none false = some r ∧
        toksCmt.get? j = some r ∧ (mkTok NAME 0 "x").index ≤ j ∧ r.index = j ∧
        (matchToken r NEWLINE none = true ∨
          (isEOF r.type = true ∧ j = toksCmt.length - 1)) ∧
        (∀ k u, (mkTok NAME 0 "x").index ≤ k → k < j → toksCmt.get? k = some u →
          matchToken u NEWLINE none = false) :=
  ⟨by decide,
   claim_find_token_forward toksCmt 0 (mkTok NAME 0 "x") NEWLINE none
     (by decide) (by decide)⟩

/-- C7 counterexample: the claim states that prev_token applied at the
first token fails with an out-of-range error; on the concrete sequence
toksCmt, prev_token of the first token instead returns the last token
(the ENDMARKER) because Python list indexing wraps the index -1 around to
the end of the list. -/
theorem claim_next_prev_counterexample :
    prevToken toksCmt false (mkTok NAME 0 "x") = some (mkTok ENDMARKER 5 "") ∧
      prevToken toksCmt false (mkTok NAME 0 "x") ≠ none := by
  constructor
  · decide
  · decide

/-- C7 amended: on a well-formed token sequence, next_token and
prev_token step by sequence index skipping non-coding tokens and never
skip past the end marker; next_token past the end fails (IndexError);
but prev_token applied at the first token does not fail: the Python
index -1 wraps around, so it returns the last token (the end marker).
Parts: (a) next of the end marker is an error; (b) next of any earlier
token is the nearest following coding token, which exists and lies at or
before the end marker; (c) prev of the first token wraps to the last
token; (d) prev of a later token with some coding token before it is the
nearest preceding coding token. -/
theorem claim_next_prev_amended (toks : List Tok)
    (hwf : tokensWF toks = true) :
    (∀ t, toks.get? (toks.length - 1) = some t → nextToken toks false t = none) ∧
    (∀ i t, toks.get? i = some t → i < toks.length - 1 →
      ∃ j u, nextToken toks false t = some u ∧ toks.get? j = some u ∧
        i < j ∧ j ≤ toks.length - 1 ∧ isNonCoding u.type = false ∧
        ∀ k v, i < k → k < j → toks.get? k = some v → isNonCoding v.type = true) ∧
    (∀ t, toks.get? 0 = some t →
      ∃ em, toks.get? (toks.length - 1) = some em ∧
        prevToken toks false t = some em) ∧
    (∀ i t, toks.get? i = some t → 1 ≤ i →
      (∃ k v, k < i ∧ toks.get? k = some v ∧ isNonCoding v.type = false) →
      ∃ j u, prevToken toks false t = some u ∧ toks.get? j = some u ∧
        j < i ∧ isNonCoding u.type = false ∧
        ∀ k v, j < k → k < i → toks.get? k = some v → isNonCoding v.type = true) := by
  refine ⟨?_, ?_, ?_, ?_⟩
  · intro t hg
    have hti := tokensWF_idx hwf _ t hg
    have hlt := (List.get?_eq_some.mp hg).1
    simp only [nextToken, if_neg (by simp : ¬ false = true)]
    rw [hti]
    exact skipFwd_none_of_ge (by omega)
  · intro i t hg hlt
    have hti := tokensWF_idx hwf i t hg
    obtain ⟨em, hem, heof⟩ := tokensWF_last_eof hwf
    have hemc : isNonCoding em.type = false := eof_not_nonCoding heof
    obtain ⟨u, hu⟩ := @skipFwd_isSome toks (i + 1)
      (toks.length - 1) _ (by omega) hem hemc
    obtain ⟨j, hj1, hj2, hj3, hj4⟩ := skipFwd_some_spec hu
    have hjlt := (List.get?_eq_some.mp hj2).1
    refine ⟨j, u, ?_, hj2, by omega, by omega, hj3, ?_⟩
    · simp only [nextToken, if_neg (by simp : ¬ false = true)]
      rw [hti]
      exact hu
    · intro k v hk1 hk2 hkv
      exact hj4 k v (by omega) hk2 hkv
  · intro t hg
    have hti := tokensWF_idx hwf 0 t hg
    obtain ⟨em, hem, heof⟩ := tokensWF_last_eof hwf
    have hemc : isNonCoding em.type = false := eof_not_nonCoding heof
    have hlen : 0 < toks.length := by
      have := (List.get?_eq_some.mp hg).1
      omega
    refine ⟨em, hem, ?_⟩
    simp only [prevToken, if_neg (by simp : ¬ false = true)]
    rw [hti]
    have hpg : pyGet toks ((0 : Int) - 1) = some em := by
      unfold pyGet
      rw [if_neg (by omega), if_pos (by omega)]
      have : ((0 : Int) - 1 + (toks.length : Int)).toNat = toks.length - 1 := by
        omega
      rw [this]
      exact hem
    simp only [Nat.cast_zero]
    exact skipBwd_found hpg hemc
  · intro i t hg hi1 hcod
    obtain ⟨k0, v0, hk0, hv0, hv0c⟩ := hcod
    have hti := tokensWF_idx hwf i t hg
    have hilt := (List.get?_eq_some.mp hg).1
    have hpgk : pyGet toks (k0 : Int) = some v0 := by
      rw [pyGet_nonneg toks (k0 : Int) (by omega)]
      simpa using hv0
    obtain ⟨u, hu⟩ := @skipBwd_isSome toks ((i : Int) - 1)
      ((k0 : Int)) _ (by push_cast; omega) (by omega) hpgk hv0c
    obtain ⟨j, hj1, hj2, hj3, hj4⟩ := skipBwd_some_spec hu
    have hj0 : 0 ≤ j := by
      by_contra hneg
      push_neg at hneg
      have := hj4 (k0 : Int) v0 (by omega) (by omega) hpgk
      rw [hv0c] at this
      exact absurd this (by simp)
    have hjg : toks.get? j.toNat = some u := by
      rw [pyGet_nonneg toks j hj0] at hj2
      exact hj2
    refine ⟨j.toNat, u, ?_, hjg, by omega, hj3, ?_⟩
    · simp only [prevToken, if_neg (by simp : ¬ false = true)]
      rw [hti]
      exact hu
    · intro k v hkj hki hkv
      have : pyGet toks (k : Int) = some v := by
        rw [pyGet_nonneg toks (k : Int) (by omega)]
        simpa using hkv
      exact hj4 (k : Int) v (by omega) (by omega) this

theorem claim_next_prev_amended_witness :
    tokensWF toksCmt = true ∧
      (∀ t, toksCmt.get? (toksCmt.length - 1) = some t →
        nextToken toksCmt false t = none) :=
  ⟨by decide, (claim_next_prev_amended toksCmt (by decide)).1⟩

/-- C4 (code bug): on the token sequence a ( b ) ( c ) x, finalize fills
the per-level arrays _low and _high with the last child's bounds repeated
([4,4,4] and [6,6,6] at the root instead of the children's bounds [1,4,7]
and [3,6,7]), because the comprehensions [c.low for low in self.children]
iterate with the variable low but read the stale loop variable c; as a
result the query for [2,5] (which straddles the two bracket pairs)
returns (2,5) unwidened, while the same pipeline with the finalize step
as specified (child bounds in child order) returns the widened (1,6). -/
theorem claim_interval_tree_finalize_bug :
    (makeIntervalTree toksBrk).map
        (fun f => match f with
          | .interval _ _ _ lows highs => some (lows, highs)
          | .empty _ _ => none) =
      some (some ([4, 4, 4], [6, 6, 6])) ∧
    (makeIntervalTree toksBrk).map (fun f => rootQuery f 2 5) =
      some (some (2, 5)) ∧
    ((makeRaw toksBrk).map specFinalize).map (fun f => rootQuery f 2 5) =
      some (some (1, 6)) := by
  exact ⟨by decide, by decide, by decide⟩

/-- C1 counterexample: on the all-coding token sequence toksPlain and the
tree treeBad, whose parent is anchored at token 5 with children anchored
at tokens 6 and 3 (the second child starts before the parent's anchor),
both passes complete without error, yet the parent is assigned
first_token index 5 and last_token index 3: the node's first token is
after its last token and the second child's range [3,3] is not contained
in the parent's, so the claimed invariant fails. -/
theorem claim_containment_counterexample :
    (exceptOk (markTree toksPlain treeBad)).map rangeInvariant = some false ∧
      (exceptOk (markTree toksPlain treeBad)).map
        (fun t => (t.firstTok.index, t.lastTok.index)) = some (5, 3) := by
  exact ⟨by decide, by decide⟩

/-- C9: after annotation, a node without a resolved first_token (such as
a pure context marker) yields text_range (0, 0) and text equal to the
empty string, and neither operation fails. -/
theorem claim_no_position_empty_text (text : String) (toks : List Tok)
    (n : MNode) (h : n.firstLast = none) :
    ASTTokens.getTextRange text toks n = (0, 0) ∧
      ASTTokens.getText text toks n = "" := by
  have h1 : ASTTokens.getTextRange text toks n = (0, 0) := by
    simp [ASTTokens.getTextRange, h]
  refine ⟨h1, ?_⟩
  simp only [ASTTokens.getText, h1]
  rfl

theorem claim_no_position_empty_text_witness :
    (MNode.mk none).firstLast = none ∧
      ASTTokens.getTextRange textNL toksNL (MNode.mk none) = (0, 0) ∧
      ASTTokens.getText textNL toksNL (MNode.mk none) = "" :=
  ⟨rfl, (claim_no_position_empty_text textNL toksNL (MNode.mk none) rfl).1,
    (claim_no_position_empty_text textNL toksNL (MNode.mk none) rfl).2⟩

/-- C8: for an expression node whose token range contains a non-logical
newline (NL) token but no logical NEWLINE token, get_text returns the
source slice wrapped in literal parentheses, except when the node's first
and last tokens already form a matching bracket pair, in which case the
slice is returned unwrapped. -/
theorem claim_paren_wrap (text : String) (toks : List Tok) (n : CTNode)
    (f l : Tok) (hft : n.tokens = some (f, l)) (hexpr : n.isExpr = true)
    (hnl : (tokenRange toks f l true).any (fun tk => matchToken tk NL none) = true)
    (hnonewline :
      (tokenRange toks f l false).any (fun t => matchToken t NEWLINE none) = false) :
    CodeText.getText text toks n =
      some (if isMatchingPair f l then strSlice text f.startpos l.endpos
        else "(" ++ strSlice text f.startpos l.endpos ++ ")") := by
  simp only [CodeText.getText, hft, hnonewline, Bool.false_eq_true, if_false,
    hexpr, hnl, Bool.and_self, if_true]
  cases hm : isMatchingPair f l with
  | true => simp [hm]
  | false => simp [hm]

theorem claim_paren_wrap_witness :
    (CTNode.mk (some (mkNLTokA, mkNLTokB)) true).tokens = some (mkNLTokA, mkNLTokB) ∧
      (tokenRange toksNL mkNLTokA mkNLTokB true).any
        (fun tk => matchToken tk NL none) = true ∧
      (tokenRange toksNL mkNLTokA mkNLTokB false).any
        (fun t => matchToken t NEWLINE none) = false ∧
      CodeText.getText textNL toksNL (CTNode.mk (some (mkNLTokA, mkNLTokB)) true) =
        some (if isMatchingPair mkNLTokA mkNLTokB then
            strSlice textNL mkNLTokA.startpos mkNLTokB.endpos
          else "(" ++ strSlice textNL mkNLTokA.startpos mkNLTokB.endpos ++ ")") :=
  ⟨rfl, by decide, by decide,
   claim_paren_wrap textNL toksNL (CTNode.mk (some (mkNLTokA, mkNLTokB)) true)
     mkNLTokA mkNLTokB rfl rfl (by decide) (by decide)⟩

/-- C5 counterexample: the claim says the candidate is extended to the
token immediately preceding the first NEWLINE at or after it.  On toksCmt
(x = 1 # c NEWLINE end-marker) with candidate the NUMBER token at index
2, the first NEWLINE is at index 4, whose immediately preceding token is
the COMMENT at index 3; but _find_last_in_line returns the token at index
2, because prev_token skips non-coding tokens. -/
theorem claim_find_last_in_line_counterexample :
    findToken toksCmt (mkTok NUMBER 2 "1") NEWLINE none false =
        some (mkTok NEWLINE 4 "") ∧
      findLastInLine toksCmt (mkTok NUMBER 2 "1") = some (mkTok NUMBER 2 "1") ∧
      (mkTok NUMBER 2 "1").index ≠ (mkTok NEWLINE 4 "").index - 1 := by
  exact ⟨by decide, by decide, by decide⟩

theorem prevToken_coding_spec {toks : List Tok} (hwf : tokensWF toks = true)
    {inl : Nat} {tnl : Tok} (hgnl : toks.get? inl = some tnl)
    {i : Nat} {t : Tok} (hi : toks.get? i = some t)
    (hic : isNonCoding t.type = false) (hlt : i < inl) :
    ∃ j r, prevToken toks false tnl = some r ∧ toks.get? j = some r ∧
      i ≤ j ∧ j < inl ∧ isNonCoding r.type = false ∧
      ∀ k u, j < k → k < inl → toks.get? k = some u →
        isNonCoding u.type = true := by
  have hnli := tokensWF_idx hwf inl tnl hgnl
  have hnlt := (List.get?_eq_some.mp hgnl).1
  have hpgi : pyGet toks (i : Int) = some t := by
    rw [pyGet_nonneg toks (i : Int) (by omega)]
    simpa using hi
  obtain ⟨u, hu⟩ := @skipBwd_isSome toks ((inl : Int) - 1)
    ((i : Int)) _ (by push_cast; omega) (by omega) hpgi hic
  obtain ⟨j, hj1, hj2, hj3, hj4⟩ := skipBwd_some_spec hu
  have hj0 : (i : Int) ≤ j := by
    by_contra hneg
    push_neg at hneg
    have := hj4 (i : Int) t (by omega) (by omega) hpgi
    rw [hic] at this
    exact absurd this (by simp)
  have hjg : toks.get? j.toNat = some u := by
    rw [pyGet_nonneg toks j (by omega)] at hj2
    exact hj2
  refine ⟨j.toNat, u, ?_, hjg, by omega, by omega, hj3, ?_⟩
  · simp only [prevToken, if_neg (by simp : ¬ false = true)]
    rw [hnli]
    exact hu
  · intro k v hkj hki hkv
    have hpk : pyGet toks (k : Int) = some v := by
      rw [pyGet_nonneg toks (k : Int) (by omega)]
      simpa using hkv
    exact hj4 (k : Int) v (by omega) (by omega) hpk

/-- C5 amended: for a coding, non-NEWLINE, non-end-marker candidate token
on a well-formed sequence, _find_last_in_line finds the first NEWLINE (or
the end marker, when no NEWLINE exists before it) strictly after the
candidate, and returns the nearest coding token before it - non-coding
tokens such as a trailing comment are skipped, so the result is not in
general the token immediately preceding the NEWLINE; the result never
precedes the candidate. -/
theorem claim_find_last_in_line_amended (toks : List Tok) (i : Nat) (t : Tok)
    (hwf : tokensWF toks = true) (hg : toks.get? i = some t)
    (hcod : isNonCoding t.type = false)
    (hnotnl : matchToken t NEWLINE none = false)
    (hnoteof : isEOF t.type = false) :
    ∃ nl j r, findToken toks t NEWLINE none false = some nl ∧
      i < nl.index ∧
      (matchToken nl NEWLINE none = true ∨
        (isEOF nl.type = true ∧ nl.index = toks.length - 1)) ∧
      (∀ k u, i ≤ k → k < nl.index → toks.get? k = some u →
        matchToken u NEWLINE none = false) ∧
      findLastInLine toks t = some r ∧
      toks.get? j = some r ∧ i ≤ j ∧ j < nl.index ∧
      isNonCoding r.type = false ∧
      (∀ k u, j < k → k < nl.index → toks.get? k = some u →
        isNonCoding u.type = true) := by
  obtain ⟨jn, nl, hij, hjnl, hfind, hstop, hnomatch, hbefore⟩ :=
    @findToken_fwd_spec toks NEWLINE none i t hwf hg
  have hti : t.index = i := tokensWF_idx hwf i t hg
  have hnli : nl.index = jn := tokensWF_idx hwf jn nl hjnl
  have hilt : i < jn := by
    rcases Nat.eq_or_lt_of_le hij with he | hlt
    · subst he
      rw [hg] at hjnl
      cases hjnl
      cases hstop with
      | inl hm => rw [hnotnl] at hm; exact absurd hm (by simp)
      | inr he2 => rw [hnoteof] at he2; exact absurd he2 (by simp)
    · exact hlt
  obtain ⟨j, r, hprev, hjr, hj1, hj2, hj3, hj4⟩ :=
    prevToken_coding_spec hwf hjnl hg hcod hilt
  refine ⟨nl, j, r, hfind, by omega, ?_, ?_, ?_, hjr, hj1, by omega, hj3, ?_⟩
  · cases hm : matchToken nl NEWLINE none with
    | true => exact Or.inl rfl
    | false =>
      refine Or.inr ⟨?_, by rw [hnli]; exact hnomatch hm⟩
      cases hstop with
      | inl h2 => rw [hm] at h2; exact absurd h2 (by simp)
      | inr h2 => exact h2
  · intro k u hk1 hk2 hku
    rw [hnli] at hk2
    exact hbefore k u hk1 hk2 hku
  · simp only [findLastInLine, hfind]
    exact hprev
  · intro k u hk1 hk2 hku
    rw [hnli] at hk2
    exact hj4 k u hk1 hk2 hku

theorem claim_find_last_in_line_amended_witness :
    tokensWF toksCmt = true ∧ isNonCoding (mkTok NUMBER 2 "1").type = false ∧
      matchToken (mkTok NUMBER 2 "1") NEWLINE none = false ∧
      isEOF (mkTok NUMBER 2 "1").type = false ∧
      ∃ nl j r, findToken toksCmt (mkTok NUMBER 2 "1") NEWLINE none false = some nl ∧
        2 < nl.index ∧
        (matchToken nl NEWLINE none = true ∨
          (isEOF nl.type = true ∧ nl.index = toksCmt.length - 1)) ∧
        (∀ k u, 2 ≤ k → k < nl.index → toksCmt.get? k = some u →
          matchToken u NEWLINE none = false) ∧
        findLastInLine toksCmt (mkTok NUMBER 2 "1") = some r ∧
        toksCmt.get? j = some r ∧ 2 ≤ j ∧ j < nl.index ∧
        isNonCoding r.type = false ∧
        (∀ k u, j < k → k < nl.index → toksCmt.get? k = some u →
          isNonCoding u.type = true) :=
  ⟨by decide, by decide, by decide, by decide,
   claim_find_last_in_line_amended toksCmt 2 (mkTok NUMBER 2 "1")
     (by decide) (by decide) (by decide) (by decide) (by decide)⟩

theorem matchToken_type {t : Tok} {ty : Nat} {s : Option String}
    (h : matchToken t ty s = true) : t.type = ty := by
  simp only [matchToken, Bool.and_eq_true, beq_iff_eq] at h
  exact h.1

theorem nextToken_spec {toks : List Tok} (hwf : tokensWF toks = true)
    {i : Nat} {last : Tok} (hg : toks.get? i = some last)
    (hne : isEOF last.type = false) :
    ∃ j u, nextToken toks false last = some u ∧ toks.get? j = some u ∧
      i < j ∧ isNonCoding u.type = false := by
  have hti := tokensWF_idx hwf i last hg
  have hlt := (List.get?_eq_some.mp hg).1
  have hnlast : i ≠ toks.length - 1 := by
    intro hc
    rw [(tokensWF_eof_iff hwf i last hg).mpr hc] at hne
    exact absurd hne (by simp)
  obtain ⟨em, hem, heof⟩ := tokensWF_last_eof hwf
  have hemc : isNonCoding em.type = false := eof_not_nonCoding heof
  obtain ⟨u, hu⟩ := @skipFwd_isSome toks (i + 1)
    (toks.length - 1) _ (by omega) hem hemc
  obtain ⟨j, hj1, hj2, hj3, _⟩ := skipFwd_some_spec hu
  refine ⟨j, u, ?_, hj2, by omega, hj3⟩
  simp only [nextToken, if_neg (by simp : ¬ false = true)]
  rw [hti]
  exact hu

theorem matchingPairs_closer {p cl : Nat × String}
    (h : matchingPairs p = some cl) :
    cl = (OP, ")") ∨ cl = (OP, "]") ∨ cl = (OP, "\x7d") := by
  unfold matchingPairs at h
  split at h
  · split at h
    · cases h; exact Or.inl rfl
    · split at h
      · cases h; exact Or.inr (Or.inl rfl)
      · split at h
        · cases h; exact Or.inr (Or.inr rfl)
        · exact absurd h (by simp)
  · exact absurd h (by simp)

theorem stackStep_types {st : List (Nat × String)} {p : Nat × String}
    (h : ∀ e, e ∈ st → e.1 = OP) :
    ∀ e, e ∈ stackStep st p → e.1 = OP := by
  intro e he
  unfold stackStep at he
  split at he
  · rename_i top rest
    split at he
    · exact h e (by simp [he])
    · cases hm : matchingPairs p with
      | none =>
        rw [hm] at he
        exact h e he
      | some cl =>
        rw [hm] at he
        rcases List.mem_cons.mp he with he1 | he2
        · subst he1
          rcases matchingPairs_closer hm with h1 | h1 | h1 <;> simp [h1]
        · exact h e he2
  · cases hm : matchingPairs p with
    | none =>
      rw [hm] at he
      simp at he
    | some cl =>
      rw [hm] at he
      simp only [List.mem_singleton] at he
      subst he
      rcases matchingPairs_closer hm with h1 | h1 | h1 <;> simp [h1]

theorem buildStack_types (gaps : List Tok) :
    ∀ e, e ∈ buildStack gaps → e.1 = OP := by
  have key : ∀ (gs : List Tok) (st : List (Nat × String)),
      (∀ e, e ∈ st → e.1 = OP) →
      ∀ e, e ∈ gs.foldl (fun st tok => stackStep st (tok.type, tok.string)) st →
        e.1 = OP := by
    intro gs
    induction gs with
    | nil => intro st h e he; exact h e he
    | cons g gs2 ih =>
      intro st h e he
      exact ih (stackStep st (g.type, g.string)) (stackStep_types h) e he
  exact key gaps [] (by simp)

theorem extendToMatch_spec {toks : List Tok} (hwf : tokensWF toks = true) :
    ∀ (st : List (Nat × String)), (∀ e, e ∈ st → e.1 = OP) →
    ∀ (last : Tok) (i : Nat), toks.get? i = some last → isEOF last.type = false →
      ((∀ u, extendToMatch toks last st = .ok u ↔
        chainMatches toks last st u = true) ∧
      ((∀ u, chainMatches toks last st u = false) →
        extendToMatch toks last st = .error .consistency)) := by
  intro st
  induction st with
  | nil =>
    intro _ last i hg hne
    constructor
    · intro u
      simp only [extendToMatch, chainMatches]
      constructor
      · intro h
        cases h
        simp
      · intro h
        simp only [beq_iff_eq] at h
        subst h
        rfl
    · intro hall
      have := hall last
      simp [chainMatches] at this
  | cons top rest ih =>
    intro hty last i hg hne
    obtain ⟨j, l2, hnext, hjl2, hij, hl2c⟩ := nextToken_spec hwf hg hne
    have hstep : extendToMatch toks last (top :: rest) =
        if matchToken l2 top.1 (some top.2) then extendToMatch toks l2 rest
        else .error .consistency := by
      have h1 : extendToMatch toks last (top :: rest) =
          (expectToken l2 top.1 (some top.2)) >>=
            (fun _ => extendToMatch toks l2 rest) := by
        simp only [extendToMatch, hnext, liftOpt]
        rfl
      rw [h1, expectToken]
      cases hm : matchToken l2 top.1 (some top.2) with
      | true =>
        simp only [if_pos rfl]
        rfl
      | false =>
        simp only [Bool.false_eq_true, if_false]
        rfl
    have hchain : ∀ u, chainMatches toks last (top :: rest) u =
        (matchToken l2 top.1 (some top.2) && chainMatches toks l2 rest u) := by
      intro u
      simp only [chainMatches, hnext]
    cases hm : matchToken l2 top.1 (some top.2) with
    | false =>
      constructor
      · intro u
        rw [hstep, hchain, hm, if_neg (by simp)]
        simp
      · intro _
        rw [hstep, hm, if_neg (by simp)]
    | true =>
      have hl2ty : l2.type = OP := by
        have := matchToken_type hm
        rw [this]
        exact (hty top (by simp)).symm ▸ rfl
      have hl2ne : isEOF l2.type = false := by
        rw [hl2ty]
        decide
      obtain ⟨ihiff, iherr⟩ := ih (fun e he => hty e (by simp [he])) l2 j hjl2 hl2ne
      constructor
      · intro u
        rw [hstep, hchain, hm, if_pos rfl]
        simp only [Bool.true_and]
        exact ihiff u
      · intro hall
        rw [hstep, hm, if_pos rfl]
        apply iherr
        intro u
        have := hall u
        rw [hchain, hm] at this
        simpa using this

/-- C2: in the last-token pass, the stack of expected closers is built by
folding the push/pop step over the node's gap tokens (buildStack), and
extendToMatch then behaves as the claim states: an empty stack leaves the
candidate unchanged; otherwise the candidate succeeds exactly when
advancing one (coding) token at a time lands on the successive expected
closers in pop order, the final candidate being the last matched closer
(chainMatches); and any mismatch raises the ConsistencyError
(ValueError), never a different error. -/
theorem claim_bracket_stack_extension (toks : List Tok) (i : Nat) (last : Tok)
    (gaps : List Tok)
    (hwf : tokensWF toks = true) (hg : toks.get? i = some last)
    (hne : isEOF last.type = false) :
    (buildStack gaps = [] → bracketExtend toks last gaps = .ok last) ∧
    (∀ u, bracketExtend toks last gaps = .ok u ↔
      chainMatches toks last (buildStack gaps) u = true) ∧
    ((∀ u, chainMatches toks last (buildStack gaps) u = false) →
      bracketExtend toks last gaps = .error .consistency) := by
  obtain ⟨hiff, herr⟩ := extendToMatch_spec hwf (buildStack gaps)
    (buildStack_types gaps) last i hg hne
  refine ⟨?_, hiff, herr⟩
  intro hempty
  rw [bracketExtend, hempty]
  rfl

theorem claim_bracket_stack_extension_witness :
    tokensWF toksCall = true ∧
      isEOF (mkTok NAME 2 "a").type = false ∧
      buildStack [mkTok OP 1 "("] = [(OP, ")")] ∧
      exceptOk (bracketExtend toksCall (mkTok NAME 2 "a") [mkTok OP 1 "("]) =
        some (mkTok OP 3 ")") ∧
      (∀ u, bracketExtend toksCall (mkTok NAME 2 "a") [mkTok OP 1 "("] = .ok u ↔
        chainMatches toksCall (mkTok NAME 2 "a")
          (buildStack [mkTok OP 1 "("]) u = true) :=
  ⟨by decide, by decide, by decide, by decide,
   (claim_bracket_stack_extension toksCall 2 (mkTok NAME 2 "a")
      [mkTok OP 1 "("] (by decide) (by decide) (by decide)).2.1⟩

theorem allCoding_get {toks : List Tok} (h : allCoding toks = true)
    {i : Nat} {t : Tok} (hg : toks.get? i = some t) :
    isNonCoding t.type = false := by
  have hm : t ∈ toks := List.get?_mem hg
  have := List.all_eq_true.mp h t hm
  simpa using this

theorem noBrackets_get {toks : List Tok} (h : noBrackets toks = true)
    {t : Tok} (hm : t ∈ toks) :
    matchingPairs (t.type, t.string) = none := by
  have := List.all_eq_true.mp h t hm
  simpa using this

theorem defaultKind_ne {k : String} (h : defaultKind k = true) :
    k ≠ "listcomp" ∧ k ≠ "comprehension" ∧ k ≠ "attribute" ∧
      k ≠ "assignattr" ∧ k ≠ "delattr" ∧ k ≠ "call" ∧ k ≠ "subscript" ∧
      k ≠ "tuple" ∧ k ≠ "num" := by
  simp only [defaultKind, Bool.not_eq_true', Bool.or_eq_false_iff,
    beq_eq_false_iff_ne, ne_eq] at h
  tauto

theorem firstCorrection_default {toks : List Tok} {k : String}
    (h : defaultKind k = true) (x : Option Tok) :
    firstCorrection toks k x = .ok x := by
  obtain ⟨h1, h2, _⟩ := defaultKind_ne h
  unfold firstCorrection
  rw [if_neg h1, if_neg h2]
  rfl

theorem lastCorrection_default {toks : List Tok} {k : String}
    (h : defaultKind k = true) (x : Tok) :
    lastCorrection toks k x = .ok x := by
  obtain ⟨_, _, h3, h4, h5, h6, h7, h8, h9⟩ := defaultKind_ne h
  unfold lastCorrection
  rw [if_neg (by simp [h3, h4, h5]), if_neg h6, if_neg h7, if_neg h8, if_neg h9]
  rfl

theorem tokenRange_subset {toks : List Tok} {a b : Tok} {x : Bool} :
    ∀ g, g ∈ tokenRange toks a b x → g ∈ toks := by
  intro g hg
  unfold tokenRange at hg
  have h1 := List.mem_filter.mp hg
  obtain ⟨i, _, hi⟩ := List.mem_filterMap.mp h1.1
  exact List.get?_mem hi

theorem stackStep_nil_of_none {p : Nat × String}
    (h : matchingPairs p = none) : stackStep [] p = [] := by
  unfold stackStep
  rw [h]

theorem buildStack_nil_of_noBrackets {toks : List Tok}
    (hnb : noBrackets toks = true) :
    ∀ gs : List Tok, (∀ g, g ∈ gs → g ∈ toks) → buildStack gs = [] := by
  have key : ∀ (gs : List Tok), (∀ g, g ∈ gs → g ∈ toks) →
      gs.foldl (fun st tok => stackStep st (tok.type, tok.string)) [] = [] := by
    intro gs
    induction gs with
    | nil => intro _; rfl
    | cons g gs2 ih =>
      intro hsub
      simp only [List.foldl_cons]
      rw [stackStep_nil_of_none (noBrackets_get hnb (hsub g (by simp)))]
      exact ih (fun x hx => hsub x (by simp [hx]))
  intro gs hsub
  exact key gs hsub

theorem anchorPre_sublist {c : ANode} :
    ∀ {ch : List ANode}, c ∈ ch → (anchorPre c).Sublist (anchorPreList ch) := by
  intro ch
  induction ch with
  | nil => intro h; simp at h
  | cons d ds ih =>
    intro h
    rcases List.mem_cons.mp h with he | hm
    · subst he
      simpa [anchorPreList] using List.sublist_append_left (anchorPre c) (anchorPreList ds)
    · have h2 : (anchorPreList ds).Sublist (anchorPreList (d :: ds)) := by
        simpa [anchorPreList] using
          List.sublist_append_right (anchorPre d) (anchorPreList ds)
      exact (ih hm).trans h2

theorem structuralOKList_mem {toks : List Tok} :
    ∀ {ch : List ANode}, structuralOKList toks ch = true →
      ∀ c, c ∈ ch → structuralOK toks c = true := by
  intro ch
  induction ch with
  | nil => intro _ c hc; simp at hc
  | cons d ds ih =>
    intro h c hc
    simp only [structuralOKList, Bool.and_eq_true] at h
    rcases List.mem_cons.mp hc with he | hm
    · subst he; exact h.1
    · exact ih h.2 c hm

theorem structuralOK_node {toks : List Tok} {k : String} {s : Bool}
    {a : Option Nat} {ch : List ANode}
    (h : structuralOK toks (.mk k s a ch) = true) :
    ∃ av, a = some av ∧ av < toks.length ∧ s = false ∧ defaultKind k = true ∧
      ∀ c, c ∈ ch → structuralOK toks c = true := by
  simp only [structuralOK, Bool.and_eq_true] at h
  obtain ⟨⟨⟨h1, h2⟩, h3⟩, h4⟩ := h
  cases a with
  | none => simp at h1
  | some av =>
    refine ⟨av, rfl, by simpa using h1, by simpa using h2, h3,
      structuralOKList_mem h4⟩

theorem anchorPre_node {k : String} {s : Bool} {av : Nat} {ch : List ANode} :
    anchorPre (.mk k s (some av) ch) = av :: anchorPreList ch := rfl

theorem anchorPre_ne_nil {toks : List Tok} {t : ANode}
    (h : structuralOK toks t = true) : anchorPre t ≠ [] := by
  cases t with
  | mk k s a ch =>
    obtain ⟨av, ha, _⟩ := structuralOK_node h
    subst ha
    rw [anchorPre_node]
    simp

theorem rmA_mem_anchorPre {toks : List Tok} :
    ∀ t : ANode, structuralOK toks t = true →
      ∃ avr, rmA t = some avr ∧ avr ∈ anchorPre t := by
  intro t
  induction t using ANode.inductionOn with
  | h k s a ch ih =>
    intro hok
    obtain ⟨av, ha, _, _, _, hchall⟩ := structuralOK_node hok
    subst ha
    rw [anchorPre_node]
    have key : ∀ cs, (∀ c, c ∈ cs → c ∈ ch) →
        (rmAList (some av) cs = some av ∧ cs = []) ∨
        (∃ avr, rmAList (some av) cs = some avr ∧ avr ∈ anchorPreList cs) := by
      intro cs
      induction cs with
      | nil => intro _; exact Or.inl ⟨rfl, rfl⟩
      | cons c cs2 ihc =>
        intro hsub
        cases cs2 with
        | nil =>
          obtain ⟨avr, h1, h2⟩ := ih c (hsub c (by simp))
            (hchall c (hsub c (by simp)))
          refine Or.inr ⟨avr, ?_, ?_⟩
          · simpa [rmAList] using h1
          · simp only [anchorPreList]
            exact List.mem_append.mpr (Or.inl h2)
        | cons d ds =>
          rcases ihc (fun x hx => hsub x (by simp [List.mem_cons.mp hx])) with
            ⟨_, habs⟩ | ⟨avr, h1, h2⟩
          · exact absurd habs (by simp)
          · refine Or.inr ⟨avr, ?_, ?_⟩
            · simpa [rmAList] using h1
            · simp only [anchorPreList]
              exact List.mem_append.mpr (Or.inr h2)
    rcases key ch (fun c hc => hc) with ⟨h1, h2⟩ | ⟨avr, h1, h2⟩
    · subst h2
      exact ⟨av, by simpa [rmA] using h1, by simp⟩
    · exact ⟨avr, by simpa [rmA] using h1, by simp [h2]⟩

theorem anchorPre_mem_lt {toks : List Tok} :
    ∀ t : ANode, structuralOK toks t = true →
      ∀ x, x ∈ anchorPre t → x < toks.length := by
  intro t
  induction t using ANode.inductionOn with
  | h k s a ch ih =>
    intro hok x hx
    obtain ⟨av, ha, hlt, _, _, hchall⟩ := structuralOK_node hok
    subst ha
    rw [anchorPre_node] at hx
    rcases List.mem_cons.mp hx with he | hm
    · omega
    · have key : ∀ cs, (∀ c, c ∈ cs → c ∈ ch) → x ∈ anchorPreList cs →
          x < toks.length := by
        intro cs
        induction cs with
        | nil => intro _ hx2; simp [anchorPreList] at hx2
        | cons c cs2 ihc =>
          intro hsub hx2
          simp only [anchorPreList] at hx2
          rcases List.mem_append.mp hx2 with h1 | h2
          · exact ih c (hsub c (by simp)) (hchall c (hsub c (by simp))) x h1
          · exact ihc (fun y hy => hsub y (by simp [hy])) h2
      exact key ch (fun c hc => hc) hm

theorem firstPass_node_eq {toks : List Tok} {k : String} {s : Bool} {av : Nat}
    {ch : List ANode} {fb : Option Tok} {ta : Tok}
    (hg : toks.get? av = some ta) :
    firstPass toks (.mk k s (some av) ch) fb =
      (firstPassList toks ch ((some ta).orElse (fun _ => fb))).bind
        (fun children2 =>
          (resolveFirstToken (some ta) (children2.head?.map ANode1.firstTok)
              fb).bind
            (fun resolved =>
              (firstCorrection toks k resolved).bind
                (fun corrected =>
                  Except.ok (.mk k s (some av) corrected children2)))) := by
  simp only [firstPass, hg]
  rfl

theorem decorate1_firstTok {toks : List Tok} {k : String} {s : Bool} {av : Nat}
    {ch : List ANode} {ta : Tok} (hg : toks.get? av = some ta) :
    (decorate1 toks (.mk k s (some av) ch)).firstTok = some ta := by
  show toks.get? av = some ta
  exact hg

theorem firstPass_decorate {toks : List Tok} (hwf : tokensWF toks = true) :
    ∀ t, structuralOK toks t = true → (anchorPre t).Pairwise (· ≤ ·) →
      ∀ fb, firstPass toks t fb = .ok (decorate1 toks t) := by
  intro t
  induction t using ANode.inductionOn with
  | h k s a ch ih =>
    intro hok hpw fb
    obtain ⟨av, ha, hlt, hs, hdk, hchall⟩ := structuralOK_node hok
    subst ha
    obtain ⟨ta, hta⟩ : ∃ ta, toks.get? av = some ta := by
      cases hg : toks.get? av with
      | none => have := List.get?_eq_none.mp hg; omega
      | some x => exact ⟨x, rfl⟩
    rw [anchorPre_node] at hpw
    have hpwch : (anchorPreList ch).Pairwise (· ≤ ·) :=
      (List.pairwise_cons.mp hpw).2
    have havle : ∀ x, x ∈ anchorPreList ch → av ≤ x :=
      (List.pairwise_cons.mp hpw).1
    have hlist : ∀ cs, (∀ c, c ∈ cs → c ∈ ch) → ∀ fb2,
        firstPassList toks cs fb2 = .ok (decorate1List toks cs) := by
      intro cs
      induction cs with
      | nil => intro _ fb2; rfl
      | cons c cs2 ihc =>
        intro hsub fb2
        have hcok : structuralOK toks c = true := hchall c (hsub c (by simp))
        have hcpw : (anchorPre c).Pairwise (· ≤ ·) :=
          hpwch.sublist (anchorPre_sublist (hsub c (by simp)))
        simp only [firstPassList, decorate1List,
          ih c (hsub c (by simp)) hcok hcpw fb2,
          ihc (fun x hx => hsub x (by simp [hx])) fb2]
        rfl
    have hd1 : decorate1 toks (ANode.mk k s (some av) ch) =
        ANode1.mk k s (some av) (some ta) (decorate1List toks ch) := by
      show ANode1.mk k s (some av) (toks.get? av) (decorate1List toks ch) = _
      rw [hta]
    rw [firstPass_node_eq hta, hlist ch (fun c hc => hc), hd1]
    cases ch with
    | nil =>
      simp only [decorate1List, List.head?, Option.map, Except.bind,
        resolveFirstToken, firstCorrection_default hdk]
      rfl
    | cons c cs =>
      cases c with
      | mk kc sc ac chc =>
        obtain ⟨avc, hac, hltc, _, _, _⟩ := structuralOK_node
          (hchall (ANode.mk kc sc ac chc) (by simp))
        subst hac
        obtain ⟨tc, htc⟩ : ∃ tc, toks.get? avc = some tc := by
          cases hg : toks.get? avc with
          | none => have := List.get?_eq_none.mp hg; omega
          | some x => exact ⟨x, rfl⟩
        have hchead :
            (decorate1List toks
                (ANode.mk kc sc (some avc) chc :: cs)).head?.map ANode1.firstTok =
              some (some tc) := by
          simp only [decorate1List, List.head?, Option.map]
          rw [decorate1_firstTok htc]
        have hle : av ≤ avc := by
          apply havle
          have hmem : avc ∈ anchorPre (ANode.mk kc sc (some avc) chc) := by
            rw [anchorPre_node]
            simp
          exact (anchorPre_sublist
            (by simp : ANode.mk kc sc (some avc) chc ∈
              ANode.mk kc sc (some avc) chc :: cs)).subset hmem
        have hidx : ¬ (tc.index < ta.index) := by
          have h1 := tokensWF_idx hwf av ta hta
          have h2 := tokensWF_idx hwf avc tc htc
          omega
        simp only [hchead, Except.bind, resolveFirstToken, if_neg hidx,
          firstCorrection_default hdk]
        rfl

theorem pyGet_mem {A : Type} {l : List A} {i : Int} {a : A}
    (h : pyGet l i = some a) : a ∈ l := by
  unfold pyGet at h
  split at h
  · exact List.get?_mem h
  · split at h
    · exact List.get?_mem h
    · exact absurd h (by simp)

theorem allCoding_mem {toks : List Tok} (h : allCoding toks = true)
    {t : Tok} (hm : t ∈ toks) : isNonCoding t.type = false := by
  have := List.all_eq_true.mp h t hm
  simpa using this

theorem nextToken_allCoding {toks : List Tok} (hac : allCoding toks = true)
    {t u : Tok} (hg : toks.get? (t.index + 1) = some u) :
    nextToken toks false t = some u := by
  simp only [nextToken, if_neg (by simp : ¬ false = true)]
  exact skipFwd_found hg (allCoding_get hac hg)

theorem prevToken_allCoding {toks : List Tok} (hac : allCoding toks = true)
    {t u : Tok} (hg : pyGet toks ((t.index : Int) - 1) = some u) :
    prevToken toks false t = some u := by
  simp only [prevToken, if_neg (by simp : ¬ false = true)]
  exact skipBwd_found hg (allCoding_mem hac (pyGet_mem hg))

theorem prevToken_allCoding_isSome {toks : List Tok}
    (hwf : tokensWF toks = true) (hac : allCoding toks = true)
    {t : Tok} (hidx : t.index < toks.length) :
    ∃ u, prevToken toks false t = some u := by
  have hne : toks ≠ [] := tokensWF_ne_nil hwf
  have hlen : 0 < toks.length := List.length_pos.mpr hne
  by_cases h1 : 1 ≤ t.index
  · have hg0 : pyGet toks ((t.index : Int) - 1) = toks.get? (t.index - 1) := by
      rw [pyGet_nonneg _ _ (by omega)]
      congr 1
      omega
    cases hg : toks.get? (t.index - 1) with
    | none =>
      have := List.get?_eq_none.mp hg
      omega
    | some u =>
      exact ⟨u, prevToken_allCoding hac (by rw [hg0]; exact hg)⟩
  · have h0 : t.index = 0 := by omega
    obtain ⟨em, hem, _⟩ := tokensWF_last_eof hwf
    refine ⟨em, prevToken_allCoding hac ?_⟩
    rw [h0]
    unfold pyGet
    rw [if_neg (by omega), if_pos (by push_cast; omega)]
    have : (((0 : Nat) : Int) - 1 + (toks.length : Int)).toNat = toks.length - 1 := by
      omega
    rw [this]
    exact hem

theorem exceptOk_bind {A B : Type} (a : A) (f : A → Except PyErr B) :
    (Except.ok a : Except PyErr A) >>= f = f a := rfl

theorem exceptPure_bind {A B : Type} (a : A) (f : A → Except PyErr B) :
    (pure a : Except PyErr A) >>= f = f a := rfl

theorem iterNonChildGo_cons_stop {toks : List Tok} {last tok p : Tok}
    {n : ANode2} {rest : List ANode2}
    (hp : prevToken toks false n.firstTok = some p)
    (hstop : last.index ≤ n.lastTok.index) :
    iterNonChildGo toks last tok (n :: rest) =
      .ok (tokenRange toks tok p false) := by
  simp only [iterNonChildGo, hp, liftOpt, exceptOk_bind]
  rw [if_pos hstop]
  rfl

theorem iterNonChildGo_cons_go {toks : List Tok} {last tok p tok2 : Tok}
    {n : ANode2} {rest : List ANode2}
    (hp : prevToken toks false n.firstTok = some p)
    (hnstop : ¬ (last.index ≤ n.lastTok.index))
    (hnx : nextToken toks false n.lastTok = some tok2) :
    iterNonChildGo toks last tok (n :: rest) =
      (iterNonChildGo toks last tok2 rest).bind
        (fun restL => .ok (tokenRange toks tok p false ++ restL)) := by
  simp only [iterNonChildGo, hp, hnx, liftOpt, exceptOk_bind]
  rw [if_neg hnstop]
  rfl

theorem iterNonChildGo_ok {toks : List Tok} (hwf : tokensWF toks = true)
    (hac : allCoding toks = true) {last : Tok}
    (hlast : last.index < toks.length) :
    ∀ (cs : List ANode2) (tok : Tok),
      (∀ n, n ∈ cs → n.firstTok.index < toks.length ∧
        n.lastTok.index < toks.length) →
      ∃ gs, iterNonChildGo toks last tok cs = .ok gs ∧
        ∀ g, g ∈ gs → g ∈ toks := by
  intro cs
  induction cs with
  | nil =>
    intro tok _
    exact ⟨tokenRange toks tok last false, rfl, fun g hg => tokenRange_subset g hg⟩
  | cons n rest ih =>
    intro tok hb
    obtain ⟨hf, hl⟩ := hb n (by simp)
    obtain ⟨p, hp⟩ := prevToken_allCoding_isSome hwf hac hf
    by_cases hstop : last.index ≤ n.lastTok.index
    · exact ⟨tokenRange toks tok p false, iterNonChildGo_cons_stop hp hstop,
        fun g hg => tokenRange_subset g hg⟩
    · have hlt2 : n.lastTok.index + 1 < toks.length := by omega
      cases hg2 : toks.get? (n.lastTok.index + 1) with
      | none =>
        have := List.get?_eq_none.mp hg2
        omega
      | some tok2 =>
        have hnx := nextToken_allCoding hac hg2
        obtain ⟨gs, hgs, hsub⟩ := ih tok2 (fun m hm => hb m (by simp [hm]))
        refine ⟨tokenRange toks tok p false ++ gs, ?_, ?_⟩
        · rw [iterNonChildGo_cons_go hp hstop hnx, hgs]
          rfl
        · intro g hg
          rcases List.mem_append.mp hg with h1 | h2
          · exact tokenRange_subset g h1
          · exact hsub g h2

theorem lastPass_node_eq {toks : List Tok} {k : String} {s : Bool}
    {a : Option Nat} {f : Tok} {ch : List ANode1} :
    lastPass toks (.mk k s a (some f) ch) =
      (lastPassList toks ch) >>= (fun children2 =>
        (iterNonChild toks f
            (match children2.getLast? with
             | some c => c.lastTok
             | none => f) children2) >>= (fun gaps =>
          (bracketExtend toks
              (match children2.getLast? with
               | some c => c.lastTok
               | none => f) gaps) >>= (fun last1 =>
            if s = true then
              (liftOpt .outOfRange (findLastInLine toks last1)) >>= (fun last2 =>
                (lastCorrection toks k last2) >>= (fun last3 =>
                  Except.ok (.mk k s a f last3 children2)))
            else
              (lastCorrection toks k last1) >>= (fun last3 =>
                Except.ok (.mk k s a f last3 children2))))) := by
  simp only [lastPass, exceptPure_bind]
  rfl

theorem rmAList_getLast {a : Option Nat} :
    ∀ {ch : List ANode} {c : ANode}, ch.getLast? = some c →
      rmAList a ch = rmA c := by
  intro ch
  induction ch with
  | nil => intro c hc; simp at hc
  | cons d ds ih =>
    intro c hc
    cases ds with
    | nil =>
      simp only [List.getLast?_singleton, Option.some.injEq] at hc
      subst hc
      rfl
    | cons e es =>
      have h2 : (e :: es).getLast? = some c := by
        rw [List.getLast?_cons_cons] at hc
        exact hc
      have := ih h2
      simpa [rmAList] using this

theorem decorate2List_getLast {toks : List Tok} :
    ∀ {ch : List ANode},
      (decorate2List toks ch).getLast? = ch.getLast?.map (decorate2 toks) := by
  intro ch
  induction ch with
  | nil => rfl
  | cons d ds ih =>
    cases ds with
    | nil => rfl
    | cons e es =>
      have h1 : (decorate2List toks (d :: e :: es)).getLast? =
          (decorate2List toks (e :: es)).getLast? := by
        show (decorate2 toks d :: decorate2 toks e ::
          decorate2List toks es).getLast? = _
        rw [List.getLast?_cons_cons]
        rfl
      rw [h1, ih, List.getLast?_cons_cons]

theorem decorate2List_mem {toks : List Tok} :
    ∀ {ch : List ANode} {n : ANode2}, n ∈ decorate2List toks ch →
      ∃ c, c ∈ ch ∧ n = decorate2 toks c := by
  intro ch
  induction ch with
  | nil => intro n hn; simp [decorate2List] at hn
  | cons d ds ih =>
    intro n hn
    rcases List.mem_cons.mp hn with he | hm
    · exact ⟨d, by simp, he⟩
    · obtain ⟨c, hc1, hc2⟩ := ih hm
      exact ⟨c, by simp [hc1], hc2⟩

theorem decorate2_firstTok {toks : List Tok} {k : String} {s : Bool} {av : Nat}
    {ch : List ANode} {tc : Tok} (hg : toks.get? av = some tc) :
    (decorate2 toks (.mk k s (some av) ch)).firstTok = tc := by
  show ((toks.get? av).getD default) = tc
  rw [hg]
  rfl

theorem decorate2_lastTok {toks : List Tok} {k : String} {s : Bool} {av : Nat}
    {ch : List ANode} {avr : Nat} {tr : Tok}
    (hr : rmAList (some av) ch = some avr) (hg : toks.get? avr = some tr) :
    (decorate2 toks (.mk k s (some av) ch)).lastTok = tr := by
  show (((rmAList (some av) ch).bind (fun i => toks.get? i)).getD default) = tr
  rw [hr]
  show ((toks.get? avr).getD default) = tr
  rw [hg]
  rfl

theorem lastPass_decorate {toks : List Tok} (hwf : tokensWF toks = true)
    (hac : allCoding toks = true) (hnb : noBrackets toks = true) :
    ∀ t, structuralOK toks t = true →
      lastPass toks (decorate1 toks t) = .ok (decorate2 toks t) := by
  intro t
  induction t using ANode.inductionOn with
  | h k s a ch ih =>
    intro hok
    obtain ⟨av, ha, hlt, hs, hdk, hchall⟩ := structuralOK_node hok
    subst ha
    subst hs
    obtain ⟨ta, hta⟩ : ∃ ta, toks.get? av = some ta := by
      cases hg : toks.get? av with
      | none => have := List.get?_eq_none.mp hg; omega
      | some x => exact ⟨x, rfl⟩
    have htai := tokensWF_idx hwf av ta hta
    obtain ⟨avr, hrm0, hmem⟩ := rmA_mem_anchorPre (ANode.mk k false (some av) ch) hok
    have hrm : rmAList (some av) ch = some avr := hrm0
    have havrlt : avr < toks.length :=
      anchorPre_mem_lt (ANode.mk k false (some av) ch) hok avr hmem
    obtain ⟨tr, htr⟩ : ∃ tr, toks.get? avr = some tr := by
      cases hg : toks.get? avr with
      | none => have := List.get?_eq_none.mp hg; omega
      | some x => exact ⟨x, rfl⟩
    have htri := tokensWF_idx hwf avr tr htr
    have hd1 : decorate1 toks (ANode.mk k false (some av) ch) =
        ANode1.mk k false (some av) (some ta) (decorate1List toks ch) := by
      show ANode1.mk k false (some av) (toks.get? av) (decorate1List toks ch) = _
      rw [hta]
    rw [hd1, lastPass_node_eq]
    have hlist : ∀ cs, (∀ c, c ∈ cs → c ∈ ch) →
        lastPassList toks (decorate1List toks cs) =
          .ok (decorate2List toks cs) := by
      intro cs
      induction cs with
      | nil => intro _; rfl
      | cons c cs2 ihc =>
        intro hsub
        simp only [decorate1List, decorate2List, lastPassList,
          ih c (hsub c (by simp)) (hchall c (hsub c (by simp))),
          ihc (fun x hx => hsub x (by simp [hx]))]
        rfl
    rw [hlist ch (fun c hc => hc)]
    simp only [exceptOk_bind]
    have hlast0 : (match (decorate2List toks ch).getLast? with
        | some c => c.lastTok
        | none => ta) = tr := by
      cases ch with
      | nil =>
        have : avr = av := by
          simp only [rmAList] at hrm
          cases hrm
          rfl
        subst this
        rw [hta] at htr
        cases htr
        rfl
      | cons c cs =>
        obtain ⟨cl, hcl⟩ : ∃ cl, (c :: cs).getLast? = some cl := by
          cases hg : (c :: cs).getLast? with
          | none =>
            rw [List.getLast?_eq_none_iff] at hg
            simp at hg
          | some x => exact ⟨x, rfl⟩
        have hcle : (decorate2List toks (c :: cs)).getLast? =
            some (decorate2 toks cl) := by
          rw [decorate2List_getLast, hcl]
          rfl
        rw [hcle]
        have hclmem : cl ∈ c :: cs := by
          obtain ⟨h2, h3⟩ := List.mem_getLast?_eq_getLast
            (l := c :: cs) (x := cl) (by simp [Option.mem_def, hcl])
          rw [h3]
          exact List.getLast_mem h2
        have hclok := hchall cl hclmem
        cases cl with
        | mk kc sc ac chc =>
          obtain ⟨avc, hac2, _, _, _⟩ := structuralOK_node hclok
          subst hac2
          have hrmcl : rmAList (some avc) chc = some avr := by
            have h2 := rmAList_getLast (a := some av) hcl
            rw [h2] at hrm
            exact hrm
          exact decorate2_lastTok hrmcl htr
    rw [hlast0]
    have hbounds : ∀ n, n ∈ decorate2List toks ch →
        n.firstTok.index < toks.length ∧ n.lastTok.index < toks.length := by
      intro n hn
      obtain ⟨c, hc1, hc2⟩ := decorate2List_mem hn
      subst hc2
      have hcok := hchall c hc1
      cases c with
      | mk kc sc ac chc =>
        obtain ⟨avc, hac2, hltc, _, _, _⟩ := structuralOK_node hcok
        subst hac2
        obtain ⟨tc, htc⟩ : ∃ tc, toks.get? avc = some tc := by
          cases hg : toks.get? avc with
          | none => have := List.get?_eq_none.mp hg; omega
          | some x => exact ⟨x, rfl⟩
        obtain ⟨avrc, hrmc0, hmemc⟩ :=
          rmA_mem_anchorPre (ANode.mk kc sc (some avc) chc) hcok
        have havrclt : avrc < toks.length :=
          anchorPre_mem_lt (ANode.mk kc sc (some avc) chc) hcok avrc hmemc
        obtain ⟨trc, htrc⟩ : ∃ trc, toks.get? avrc = some trc := by
          cases hg : toks.get? avrc with
          | none => have := List.get?_eq_none.mp hg; omega
          | some x => exact ⟨x, rfl⟩
        rw [decorate2_firstTok htc, decorate2_lastTok hrmc0 htrc]
        have h1 := tokensWF_idx hwf avc tc htc
        have h2 := tokensWF_idx hwf avrc trc htrc
        omega
    obtain ⟨gs, hgs, hsub⟩ := @iterNonChildGo_ok toks hwf hac tr (by omega)
      (decorate2List toks ch) ta hbounds
    have hgs2 : iterNonChild toks ta tr (decorate2List toks ch) = .ok gs := hgs
    rw [hgs2]
    simp only [exceptOk_bind]
    have hbs : buildStack gs = [] := buildStack_nil_of_noBrackets hnb gs hsub
    have hbe : bracketExtend toks tr gs = .ok tr := by
      rw [bracketExtend, hbs]
      rfl
    rw [hbe]
    simp only [exceptOk_bind, Bool.false_eq_true, if_false,
      lastCorrection_default hdk]
    have hd2 : decorate2 toks (ANode.mk k false (some av) ch) =
        ANode2.mk k false (some av) ta tr (decorate2List toks ch) := by
      show ANode2.mk k false (some av) ((toks.get? av).getD default)
        (((rmAList (some av) ch).bind (fun i => toks.get? i)).getD default)
        (decorate2List toks ch) = _
      have hbind : ((some avr).bind (fun i => toks.get? i)).getD default = tr := by
        show (toks.get? avr).getD default = tr
        rw [htr]
        rfl
      rw [hta, hrm, hbind]
      rfl
    rw [hd2]

theorem decorate2_node_eq {toks : List Tok} {k : String} {s : Bool}
    {av avr : Nat} {ch : List ANode} {ta tr : Tok}
    (hta : toks.get? av = some ta) (hrm : rmAList (some av) ch = some avr)
    (htr : toks.get? avr = some tr) :
    decorate2 toks (.mk k s (some av) ch) =
      ANode2.mk k s (some av) ta tr (decorate2List toks ch) := by
  show ANode2.mk k s (some av) ((toks.get? av).getD default)
    (((rmAList (some av) ch).bind (fun i => toks.get? i)).getD default)
    (decorate2List toks ch) = _
  rw [hta, hrm]
  show ANode2.mk k s (some av) ta ((toks.get? avr).getD default)
    (decorate2List toks ch) = _
  rw [htr]
  rfl

theorem pairwise_le_getLast :
    ∀ {L : List Nat} {m : Nat}, L.Pairwise (· ≤ ·) → L.getLast? = some m →
      ∀ x, x ∈ L → x ≤ m := by
  intro L
  induction L with
  | nil => intro m _ hg; simp at hg
  | cons a L2 ih =>
    intro m hpw hg x hx
    cases L2 with
    | nil =>
      simp only [List.getLast?_singleton, Option.some.injEq] at hg
      subst hg
      simp only [List.mem_singleton] at hx
      omega
    | cons b L3 =>
      rw [List.getLast?_cons_cons] at hg
      have hm : m ∈ b :: L3 := by
        obtain ⟨h2, h3⟩ := List.mem_getLast?_eq_getLast (l := b :: L3) (x := m)
          (by simp [Option.mem_def, hg])
        rw [h3]
        exact List.getLast_mem h2
      rcases List.mem_cons.mp hx with he | hm2
      · subst he
        exact (List.pairwise_cons.mp hpw).1 m hm
      · exact ih (List.pairwise_cons.mp hpw).2 hg x hm2

theorem getLast_append_ne {A : Type} (l1 : List A) :
    ∀ {l2 : List A}, l2 ≠ [] → (l1 ++ l2).getLast? = l2.getLast? := by
  induction l1 with
  | nil => intro l2 _; rfl
  | cons a as ihl =>
    intro l2 hne
    have h1 : as ++ l2 ≠ [] := by
      intro hcontra
      exact hne (List.append_eq_nil.mp hcontra).2
    cases hX : as ++ l2 with
    | nil => exact absurd hX h1
    | cons y ys =>
      show (a :: (as ++ l2)).getLast? = l2.getLast?
      rw [hX, List.getLast?_cons_cons, ← hX]
      exact ihl hne

theorem anchorPre_getLast_rmA {toks : List Tok} :
    ∀ t : ANode, structuralOK toks t = true →
      (anchorPre t).getLast? = rmA t := by
  intro t
  induction t using ANode.inductionOn with
  | h k s a ch ih =>
    intro hok
    obtain ⟨av, ha, _, _, _, hchall⟩ := structuralOK_node hok
    subst ha
    rw [anchorPre_node]
    show (av :: anchorPreList ch).getLast? = rmAList (some av) ch
    cases ch with
    | nil => rfl
    | cons c cs =>
      have key : ∀ ds, (∀ c2, c2 ∈ ds → c2 ∈ c :: cs) → ds ≠ [] →
          ∀ a0 : Option Nat, (anchorPreList ds).getLast? = rmAList a0 ds := by
        intro ds
        induction ds with
        | nil => intro _ hne _; exact absurd rfl hne
        | cons d ds2 ihd =>
          intro hsub _ a0
          cases ds2 with
          | nil =>
            show (anchorPre d ++ []).getLast? = rmA d
            rw [List.append_nil]
            exact ih d (hsub d (by simp)) (hchall d (hsub d (by simp)))
          | cons e es =>
            show (anchorPre d ++ anchorPreList (e :: es)).getLast? =
              rmAList a0 (e :: es)
            have hne2 : anchorPreList (e :: es) ≠ [] := by
              have h3 : anchorPre e ≠ [] :=
                anchorPre_ne_nil (hchall e (hsub e (by simp)))
              show anchorPre e ++ anchorPreList es ≠ []
              intro hcontra
              exact h3 (List.append_eq_nil.mp hcontra).1
            rw [getLast_append_ne _ hne2]
            exact ihd (fun y hy => hsub y (by simp [hy])) (by simp) a0
      have h2 := key (c :: cs) (fun x hx => hx) (by simp) (some av)
      have hne : anchorPreList (c :: cs) ≠ [] := by
        have h3 : anchorPre c ≠ [] := anchorPre_ne_nil (hchall c (by simp))
        show anchorPre c ++ anchorPreList cs ≠ []
        intro hcontra
        exact h3 (List.append_eq_nil.mp hcontra).1
      cases hX : anchorPreList (c :: cs) with
      | nil => exact absurd hX hne
      | cons y ys =>
        rw [hX] at h2
        rw [List.getLast?_cons_cons]
        exact h2

theorem rangeInvariant_node (k : String) (s : Bool) (a : Option Nat)
    (f l : Tok) (ch : List ANode2) :
    rangeInvariant (.mk k s a f l ch) =
      (decide (f.index ≤ l.index) && rangeInvariantList f l ch) := rfl

theorem rangeInvariantList_cons (f l : Tok) (c : ANode2) (cs : List ANode2) :
    rangeInvariantList f l (c :: cs) =
      (decide (f.index ≤ c.firstTok.index) &&
        decide (c.lastTok.index ≤ l.index) && rangeInvariant c &&
        rangeInvariantList f l cs) := rfl

theorem decorate2_invariant {toks : List Tok} (hwf : tokensWF toks = true) :
    ∀ t, structuralOK toks t = true → (anchorPre t).Pairwise (· ≤ ·) →
      rangeInvariant (decorate2 toks t) = true := by
  intro t
  induction t using ANode.inductionOn with
  | h k s a ch ih =>
    intro hok hpw
    obtain ⟨av, ha, hlt, hs, hdk, hchall⟩ := structuralOK_node hok
    subst ha
    subst hs
    obtain ⟨ta, hta⟩ : ∃ ta, toks.get? av = some ta := by
      cases hg : toks.get? av with
      | none => have := List.get?_eq_none.mp hg; omega
      | some x => exact ⟨x, rfl⟩
    have htai := tokensWF_idx hwf av ta hta
    obtain ⟨avr, hrm0, hmem⟩ :=
      rmA_mem_anchorPre (ANode.mk k false (some av) ch) hok
    have hrm : rmAList (some av) ch = some avr := hrm0
    have havrlt : avr < toks.length :=
      anchorPre_mem_lt (ANode.mk k false (some av) ch) hok avr hmem
    obtain ⟨tr, htr⟩ : ∃ tr, toks.get? avr = some tr := by
      cases hg : toks.get? avr with
      | none => have := List.get?_eq_none.mp hg; omega
      | some x => exact ⟨x, rfl⟩
    have htri := tokensWF_idx hwf avr tr htr
    have hlastq : (anchorPre (ANode.mk k false (some av) ch)).getLast? =
        some avr := by
      rw [anchorPre_getLast_rmA (ANode.mk k false (some av) ch) hok]
      exact hrm0
    have hub : ∀ x, x ∈ anchorPre (ANode.mk k false (some av) ch) → x ≤ avr :=
      pairwise_le_getLast hpw hlastq
    rw [anchorPre_node] at hpw hmem
    have hpwch : (anchorPreList ch).Pairwise (· ≤ ·) :=
      (List.pairwise_cons.mp hpw).2
    have havle : ∀ x, x ∈ anchorPreList ch → av ≤ x :=
      (List.pairwise_cons.mp hpw).1
    have h1 : av ≤ avr := by
      rcases List.mem_cons.mp hmem with he | hm
      · omega
      · exact havle avr hm
    have key : ∀ cs, (∀ c, c ∈ cs → c ∈ ch) →
        rangeInvariantList ta tr (decorate2List toks cs) = true := by
      intro cs
      induction cs with
      | nil => intro _; rfl
      | cons c cs2 ihc =>
        intro hsub
        have hcmem : c ∈ ch := hsub c (by simp)
        have hcok := hchall c hcmem
        cases c with
        | mk kc sc ac chc =>
          obtain ⟨avc, hac2, hltc, _, _, _⟩ := structuralOK_node hcok
          subst hac2
          obtain ⟨tc, htc⟩ : ∃ tc, toks.get? avc = some tc := by
            cases hg : toks.get? avc with
            | none => have := List.get?_eq_none.mp hg; omega
            | some x => exact ⟨x, rfl⟩
          have htci := tokensWF_idx hwf avc tc htc
          obtain ⟨avrc, hrmc0, hmemc⟩ :=
            rmA_mem_anchorPre (ANode.mk kc sc (some avc) chc) hcok
          have hrmc : rmAList (some avc) chc = some avrc := hrmc0
          have havrclt : avrc < toks.length :=
            anchorPre_mem_lt (ANode.mk kc sc (some avc) chc) hcok avrc hmemc
          obtain ⟨trc, htrc⟩ : ∃ trc, toks.get? avrc = some trc := by
            cases hg : toks.get? avrc with
            | none => have := List.get?_eq_none.mp hg; omega
            | some x => exact ⟨x, rfl⟩
          have htrci := tokensWF_idx hwf avrc trc htrc
          have h2 : av ≤ avc := by
            apply havle
            have hm2 : avc ∈ anchorPre (ANode.mk kc sc (some avc) chc) := by
              rw [anchorPre_node]
              simp
            exact (anchorPre_sublist hcmem).subset hm2
          have h3 : avrc ≤ avr := by
            apply hub
            rw [anchorPre_node]
            exact List.mem_cons.mpr
              (Or.inr ((anchorPre_sublist hcmem).subset hmemc))
          have hcpw :
              (anchorPre (ANode.mk kc sc (some avc) chc)).Pairwise (· ≤ ·) :=
            hpwch.sublist (anchorPre_sublist hcmem)
          have hcinv := ih (ANode.mk kc sc (some avc) chc) hcmem hcok hcpw
          have hcons : decorate2List toks (ANode.mk kc sc (some avc) chc :: cs2)
              = decorate2 toks (ANode.mk kc sc (some avc) chc) ::
                decorate2List toks cs2 := rfl
          rw [hcons, rangeInvariantList_cons, decorate2_firstTok htc,
            decorate2_lastTok hrmc htrc]
          simp only [Bool.and_eq_true, decide_eq_true_eq]
          exact ⟨⟨⟨by omega, by omega⟩, hcinv⟩,
            ihc (fun x hx => hsub x (by simp [hx]))⟩
    rw [decorate2_node_eq hta hrm htr, rangeInvariant_node]
    simp only [Bool.and_eq_true, decide_eq_true_eq]
    exact ⟨by omega, key ch (fun c hc => hc)⟩

/-- C1: amended containment claim. Marking is the first-token pass followed
by the last-token pass; over a well-formed token sequence whose tokens are
all coding and contain no opening bracket, for a tree whose nodes are all
anchored, non-statement and of a kind without per-kind corrections, and
whose pre-order anchor indices are nondecreasing, mark_tokens succeeds,
every node receives its own anchor token as first_token and the anchor
token of its rightmost spine as last_token, and the resulting ranges
satisfy the containment invariant: at every node first_token is no later
than last_token and every child's range lies inside its parent's. (The
unrestricted claim is refuted by claim_containment_counterexample.) -/
theorem claim_containment_amended (toks : List Tok) (t : ANode)
    (hwf : tokensWF toks = true) (hac : allCoding toks = true)
    (hnb : noBrackets toks = true) (hok : structuralOK toks t = true)
    (hpw : (anchorPre t).Pairwise (· ≤ ·)) :
    markTree toks t = .ok (decorate2 toks t) ∧
      rangeInvariant (decorate2 toks t) = true := by
  constructor
  · show (firstPass toks t none >>= fun t1 => lastPass toks t1) =
      .ok (decorate2 toks t)
    rw [firstPass_decorate hwf t hok hpw none, exceptOk_bind,
      lastPass_decorate hwf hac hnb t hok]
  · exact decorate2_invariant hwf t hok hpw

/-- Witness for C1 amended: the eight-token sequence and the ordered tree
with pre-order anchors 0, 1, 2, 4, 5, 6 satisfy all hypotheses, marking
succeeds, and the invariant holds. -/
theorem claim_containment_amended_witness :
    tokensWF toksPlain = true ∧ allCoding toksPlain = true ∧
    noBrackets toksPlain = true ∧ structuralOK toksPlain treeGood = true ∧
    (anchorPre treeGood).Pairwise (· ≤ ·) ∧
    (markTree toksPlain treeGood = .ok (decorate2 toksPlain treeGood) ∧
      rangeInvariant (decorate2 toksPlain treeGood) = true) :=
  ⟨by decide, by decide, by decide, by decide, by decide,
    claim_containment_amended toksPlain treeGood (by decide) (by decide)
      (by decide) (by decide) (by decide)⟩
